import Mathlib

/-!
Shallow embedding of the mu_json tokenizer / token navigator (src/src/mu_json.c,
src/src/mu_json.h) and of the mu_jems JSON emitter (src/src/mu_jems.c,
src/src/mu_jems.h).

Modelling conventions:
* Input bytes are `Nat` values (0..255 for real inputs); `char` comparisons of
  the C code become comparisons against the byte's code point.
* `int` quantities that can be negative at the public boundary (`str_len`,
  `max_tokens`) are `Int`; the parser's cursor `str_pos` only moves forward
  and is a `Nat`.
* The caller-supplied token store is modelled as the list of tokens written so
  far; `token_count` is its length.  `memset` zeroing at `parser_reset` is
  implicit: every parse starts from the empty list.
* Null pointers at the public boundary are modelled with `Option` for the
  input string and a `Bool` flag for the token store.
* C bitfields truncate on store: `str_len : 16` bits, `level : 11` bits,
  exactly as in `mu_json_token_t`.
* The C `while` loops and the mutual recursion
  `parse_element / parse_object / parse_array` terminate because every
  iteration consumes input; the embedding makes this explicit with a fuel
  argument.  `parse_json` supplies fuel `2 * str_len + 8`, more than any
  actual run can consume, and exhaustion (unreachable on real runs) yields
  the reserved error `MU_JSON_ERR_TOO_DEEP`.  Character-level scanning loops
  get local fuel `remaining + 1`, which always suffices since each iteration
  consumes at least one byte.
-/

-- ***************************************************************************
-- Data model: token types, error codes, tokens (mu_json.h)

inductive mu_json_token_type_t : Type where
  | UNKNOWN | ARRAY | OBJECT | STRING | NUMBER | INTEGER | TRUE | FALSE | NULL
deriving DecidableEq, Repr

inductive mu_json_err_t : Type where
  | NONE | BAD_FORMAT | INCOMPLETE | NO_ENTITIES | STRAY_INPUT
  | NOT_ENOUGH_TOKENS | BAD_ARGUMENT | TOO_DEEP | NO_MULTIBYTE | INTERNAL
deriving DecidableEq, Repr

/-- Numeric value of each `mu_json_err_t` enumerator (mu_json.h lines 54-64). -/
def mu_json_err_t.code : mu_json_err_t → Int
  | .NONE => 0
  | .BAD_FORMAT => -1
  | .INCOMPLETE => -2
  | .NO_ENTITIES => -3
  | .STRAY_INPUT => -4
  | .NOT_ENOUGH_TOKENS => -5
  | .BAD_ARGUMENT => -6
  | .TOO_DEEP => -7
  | .NO_MULTIBYTE => -8
  | .INTERNAL => -9

/-- One parsed token (`mu_json_token_t`).  `str` of the C struct is a pointer
into the input buffer; here `start` is the corresponding offset.  The
bitfield widths of the C struct (`str_len : 16`, `level : 11`, `is_last : 1`)
are enforced at each store. -/
structure mu_json_token_t : Type where
  start : Nat
  str_len : Nat
  type : mu_json_token_type_t
  level : Nat
  is_last : Bool
deriving DecidableEq, Repr

instance : Inhabited mu_json_token_t :=
  ⟨{ start := 0, str_len := 0, type := .UNKNOWN, level := 0, is_last := false }⟩

/-- Replace the element at index `i` by `f` applied to it (used to model
in-place mutation of a token that was allocated earlier in the store). -/
def modifyTok : List mu_json_token_t → Nat → (mu_json_token_t → mu_json_token_t) →
    List mu_json_token_t
  | [], _, _ => []
  | t :: ts, 0, f => f t :: ts
  | t :: ts, n + 1, f => t :: modifyTok ts n f

-- ***************************************************************************
-- Parser state (struct parser, mu_json.c lines 39-50) and character helpers

structure parser_t : Type where
  str : List Nat
  str_len : Int
  str_pos : Nat
  tokens : List mu_json_token_t
  max_tokens : Int
  level : Nat
deriving Repr

/-- mu_json.c line 74. -/
def at_eos (p : parser_t) : Bool := (p.str_pos : Int) ≥ p.str_len

/-- mu_json.c line 80. -/
def peek_char (p : parser_t) : Nat := p.str.getD p.str_pos 0

/-- The cursor advance performed by `get_char` (mu_json.c line 86); the
fetched byte is `peek_char p`. -/
def advance (p : parser_t) : parser_t := { p with str_pos := p.str_pos + 1 }

/-- mu_json.c line 94. -/
def is_digit (ch : Nat) : Bool := 48 ≤ ch && ch ≤ 57

/-- mu_json.c lines 907-910. -/
def is_hex (ch : Nat) : Bool :=
  (48 ≤ ch && ch ≤ 57) || (65 ≤ ch && ch ≤ 70) || (97 ≤ ch && ch ≤ 102)

/-- Whitespace recognized by `skip_whitespace` (mu_json.c line 310):
space, tab, newline, carriage return. -/
def is_ws (ch : Nat) : Bool := ch == 32 || ch == 9 || ch == 10 || ch == 13

/-- Bytes remaining before end of string; 0 when `str_len` is not positive. -/
def remaining (p : parser_t) : Nat := (p.str_len - (p.str_pos : Int)).toNat

/-- Fuelled loop body of `skip_whitespace` (mu_json.c lines 307-316). -/
def skip_ws : Nat → parser_t → parser_t
  | 0, p => p
  | fuel + 1, p =>
    if at_eos p then p
    else if is_ws (peek_char p) then skip_ws fuel (advance p)
    else p

/-- mu_json.c lines 307-316; each iteration consumes one byte, so fuel
`remaining p + 1` always suffices. -/
def skip_whitespace (p : parser_t) : parser_t := skip_ws (remaining p + 1) p

-- ***************************************************************************
-- Token allocation and field setters (mu_json.c lines 912-960)

/-- mu_json.c lines 912-918: take the next token from the caller's store,
or fail when `token_count >= max_tokens` (an `int` comparison). -/
def alloc_ok (p : parser_t) : Bool := ¬ ((p.tokens.length : Int) ≥ p.max_tokens)

/-- The freshly initialized token written by `init_token`: start offset at
the cursor, the given type, the current nesting level (truncated to the
11-bit field), and cleared `str_len` / `is_last` (from the `memset` of
`parser_reset`, mu_json.c lines 318-327). -/
def new_tok (p : parser_t) (type : mu_json_token_type_t) : mu_json_token_t :=
  { start := p.str_pos, str_len := 0, type := type,
    level := p.level % 2048, is_last := false }

/-- mu_json.c lines 920-929: allocate a token and record its start offset,
type, and the current nesting level.  The allocated token's index is
`p.tokens.length` of the state passed in. -/
def init_token (p : parser_t) (type : mu_json_token_type_t) : Option parser_t :=
  if alloc_ok p then some { p with tokens := p.tokens ++ [new_tok p type] }
  else none

/-- mu_json.c lines 931-935: store the token's byte length (16-bit field),
measured from its recorded start to the current cursor. -/
def finalize_token (p : parser_t) (idx : Nat) : parser_t :=
  let f := fun (t : mu_json_token_t) => { t with str_len := (p.str_pos - t.start) % 65536 }
  { p with tokens := modifyTok p.tokens idx f }

/-- mu_json.c lines 949-952 applied through a token index. -/
def set_token_type (p : parser_t) (idx : Nat) (ty : mu_json_token_type_t) : parser_t :=
  { p with tokens := modifyTok p.tokens idx (fun t => { t with type := ty }) }

/-- mu_json.c lines 958-960 applied to the last written token, as done at
mu_json.c line 377. -/
def set_last_token (ts : List mu_json_token_t) : List mu_json_token_t :=
  modifyTok ts (ts.length - 1) (fun t => { t with is_last := true })

-- ***************************************************************************
-- Scalar parsers: strings, numbers, literals

/-- Scan loop of `parse_string` (mu_json.c lines 496-545).  Returns
`.NONE` when the loop exits normally (closing quote seen, not consumed, or
end of string); error codes are returned as in the C code.  Fuel
`remaining + 1` suffices since each iteration consumes at least one byte. -/
def string_scan : Nat → parser_t → mu_json_err_t × parser_t
  | 0, p => (.TOO_DEEP, p)
  | fuel + 1, p =>
    if at_eos p then (.NONE, p)
    else
      let ch := peek_char p
      if ch == 92 then
        -- backslash: escape sequence
        let p := advance p
        if at_eos p then (.INCOMPLETE, p)
        else
          let e := peek_char p
          if e == 34 || e == 92 || e == 47 || e == 98 || e == 102 ||
             e == 110 || e == 114 || e == 116 then
            string_scan fuel (advance p)
          else if e == 117 then
            -- \uXXXX: four hex digits, each checked
            let p := advance p
            if at_eos p || !is_hex (peek_char p) then (.BAD_FORMAT, p)
            else
              let p := advance p
              if at_eos p || !is_hex (peek_char p) then (.BAD_FORMAT, p)
              else
                let p := advance p
                if at_eos p || !is_hex (peek_char p) then (.BAD_FORMAT, p)
                else
                  let p := advance p
                  if at_eos p || !is_hex (peek_char p) then (.BAD_FORMAT, p)
                  else string_scan fuel (advance p)
          else (.BAD_FORMAT, p)
      else if ch &&& 128 ≠ 0 then (.NO_MULTIBYTE, p)
      else if ch < 32 then (.BAD_FORMAT, p)
      else if ch == 34 then (.NONE, p)
      else string_scan fuel (advance p)

/-- mu_json.c lines 476-563 (`parse_string`). -/
def parse_string (p : parser_t) : mu_json_err_t × parser_t :=
  if at_eos p || peek_char p ≠ 34 then (.INTERNAL, p)
  else
    let idx := p.tokens.length
    match init_token p .STRING with
    | none => (.NOT_ENOUGH_TOKENS, p)
    | some p =>
      let p := advance p  -- consume the opening quote
      match string_scan (remaining p + 1) p with
      | (.NONE, p) =>
        if at_eos p then (.INCOMPLETE, p)
        else if peek_char p ≠ 34 then (.INTERNAL, p)
        else
          let p := advance p  -- consume the closing quote
          (.NONE, finalize_token p idx)
      | r => r

/-- mu_json.c lines 565-567.  (The C name of this predicate ends in a word
this development cannot use as a suffix; the body is unchanged.) -/
def is_number_head (ch : Nat) : Bool := ch == 45 || (48 ≤ ch && ch ≤ 57)

/-- Digit-run loop used three times by `parse_number` (mu_json.c lines
616-624, 643-651, 669-677): consume decimal digits, reporting whether at
least one was consumed. -/
def scan_digits : Nat → parser_t → Bool × parser_t
  | 0, p => (false, p)
  | fuel + 1, p =>
    if at_eos p then (false, p)
    else if is_digit (peek_char p) then
      let r := scan_digits fuel (advance p)
      (true, r.2)
    else (false, p)

/-- Exponent stage of `parse_number` (mu_json.c lines 659-684) followed by
the successful finalization (lines 686-688). -/
def number_tail_exp (p : parser_t) (idx : Nat) : mu_json_err_t × parser_t :=
  if !at_eos p && (peek_char p == 101 || peek_char p == 69) then
    let p := advance (set_token_type p idx .NUMBER)  -- promote, consume e/E
    let p := if !at_eos p && (peek_char p == 43 || peek_char p == 45)
             then advance p else p  -- optional sign
    let r := scan_digits (remaining p + 1) p
    if !r.1 then (.BAD_FORMAT, r.2)
    else (.NONE, finalize_token r.2 idx)
  else (.NONE, finalize_token p idx)

/-- Fraction stage of `parse_number` (mu_json.c lines 638-657). -/
def number_tail_frac (p : parser_t) (idx : Nat) : mu_json_err_t × parser_t :=
  if !at_eos p && peek_char p == 46 then
    let p := advance (set_token_type p idx .NUMBER)  -- promote, consume '.'
    let r := scan_digits (remaining p + 1) p
    if !r.1 then (.BAD_FORMAT, r.2)
    else number_tail_exp r.2 idx
  else number_tail_exp p idx

/-- mu_json.c lines 569-689 (`parse_number`). -/
def parse_number (p : parser_t) : mu_json_err_t × parser_t :=
  if at_eos p || !is_number_head (peek_char p) then (.INTERNAL, p)
  else
    let idx := p.tokens.length
    match init_token p .INTEGER with
    | none => (.NOT_ENOUGH_TOKENS, p)
    | some p =>
      -- optional minus sign
      let p := if peek_char p == 45 then advance p else p
      if at_eos p then (.INCOMPLETE, p)
      else
        -- leading zero, if present
        let hlz := !at_eos p && peek_char p == 48
        let p := if hlz then advance p else p
        if hlz && (!at_eos p && peek_char p == 48) then (.BAD_FORMAT, p)
        else
          let r := scan_digits (remaining p + 1) p
          if hlz && r.1 then (.BAD_FORMAT, r.2)
          else if !hlz && !r.1 then (.BAD_FORMAT, r.2)
          else number_tail_frac r.2 idx

/-- Character-matching loop of `parse_literal` (mu_json.c lines 710-718). -/
def match_lit : List Nat → parser_t → mu_json_err_t × parser_t
  | [], p => (.NONE, p)
  | c :: cs, p =>
    if at_eos p then (.INCOMPLETE, p)
    else
      let ch := peek_char p
      let p := advance p
      if ch ≠ c then (.BAD_FORMAT, p)
      else match_lit cs p

/-- mu_json.c lines 691-723 (`parse_literal`). -/
def parse_literal (p : parser_t) (lit : List Nat) (ty : mu_json_token_type_t) :
    mu_json_err_t × parser_t :=
  if at_eos p then (.INTERNAL, p)
  else
    let idx := p.tokens.length
    match init_token p ty with
    | none => (.NOT_ENOUGH_TOKENS, p)
    | some p =>
      match match_lit lit p with
      | (.NONE, p) => (.NONE, finalize_token p idx)
      | r => r

/-- mu_json.c lines 725-746 (`find_and_skip`): skip whitespace, consume the
expected delimiter, skip whitespace; `BAD_FORMAT` on end of string either
side or on a different byte. -/
def find_and_skip (p : parser_t) (delim : Nat) : mu_json_err_t × parser_t :=
  let p := skip_whitespace p
  if at_eos p then (.BAD_FORMAT, p)
  else if peek_char p ≠ delim then (.BAD_FORMAT, p)
  else
    let p := skip_whitespace (advance p)
    if at_eos p then (.BAD_FORMAT, p)
    else (.NONE, p)

-- ***************************************************************************
-- Containers and element dispatch (mutual recursion, made explicit by fuel)

/-- The three mutually recursive pieces of the tokenizer at one fuel level:
`parse_element` (mu_json.c lines 381-460) and the member loops of
`parse_object` / `parse_array` (mu_json.c lines 774-809 and 859-883). -/
structure ParseFns : Type where
  element : parser_t → mu_json_err_t × parser_t
  objloop : Bool → parser_t → mu_json_err_t × parser_t
  arrloop : Bool → parser_t → mu_json_err_t × parser_t

/-- mu_json.c lines 748-832 (`parse_object`), with the member loop
abstracted as `fns.objloop`. -/
def parse_object_given (fns : ParseFns) (p : parser_t) : mu_json_err_t × parser_t :=
  if at_eos p || peek_char p ≠ 123 then (.INTERNAL, p)
  else
    let idx := p.tokens.length
    match init_token p .OBJECT with
    | none => (.NOT_ENOUGH_TOKENS, p)
    | some p =>
      let p := advance { p with level := p.level + 1 }  -- consume '{'
      match fns.objloop true p with
      | (.NONE, p) =>
        if at_eos p then (.INCOMPLETE, p)
        else if peek_char p ≠ 125 then (.INTERNAL, p)
        else
          let p := { (advance p) with level := (advance p).level - 1 }
          (.NONE, finalize_token p idx)
      | r => r

/-- mu_json.c lines 834-905 (`parse_array`), with the element loop
abstracted as `fns.arrloop`. -/
def parse_array_given (fns : ParseFns) (p : parser_t) : mu_json_err_t × parser_t :=
  if at_eos p || peek_char p ≠ 91 then (.INTERNAL, p)
  else
    let idx := p.tokens.length
    match init_token p .ARRAY with
    | none => (.NOT_ENOUGH_TOKENS, p)
    | some p =>
      let p := advance { p with level := p.level + 1 }  -- consume '['
      match fns.arrloop true p with
      | (.NONE, p) =>
        if at_eos p then (.INCOMPLETE, p)
        else if peek_char p ≠ 93 then (.INTERNAL, p)
        else
          let p := { (advance p) with level := (advance p).level - 1 }
          (.NONE, finalize_token p idx)
      | r => r

/-- mu_json.c lines 381-460 (`parse_element`): dispatch on the first
non-whitespace byte; at end of string, succeed having consumed nothing. -/
def parse_element_body (fns : ParseFns) (p : parser_t) : mu_json_err_t × parser_t :=
  let p := skip_whitespace p
  if at_eos p then (.NONE, p)
  else
    let ch := peek_char p
    if ch == 34 then parse_string p
    else if is_digit ch || ch == 45 then parse_number p
    else if ch == 116 then parse_literal p [116, 114, 117, 101] .TRUE
    else if ch == 102 then parse_literal p [102, 97, 108, 115, 101] .FALSE
    else if ch == 110 then parse_literal p [110, 117, 108, 108] .NULL
    else if ch == 123 then parse_object_given fns p
    else if ch == 91 then parse_array_given fns p
    else if ch &&& 128 ≠ 0 then (.NO_MULTIBYTE, p)
    else (.BAD_FORMAT, p)

/-- One iteration of the key/value loop of `parse_object`
(mu_json.c lines 772-809). -/
def object_loop_body (fns : ParseFns) (first : Bool) (p : parser_t) :
    mu_json_err_t × parser_t :=
  let p := skip_whitespace p
  if at_eos p then (.NONE, p)
  else if peek_char p == 125 then (.NONE, p)
  else
    let step : mu_json_err_t × parser_t :=
      if first then (.NONE, p) else find_and_skip p 44
    match step with
    | (.NONE, p) =>
      match parse_string p with
      | (.NONE, p) =>
        match find_and_skip p 58 with
        | (.NONE, p) =>
          match fns.element p with
          | (.NONE, p) => fns.objloop false p
          | r => r
        | r => r
      | r => r
    | r => r

/-- One iteration of the element loop of `parse_array`
(mu_json.c lines 859-883). -/
def array_loop_body (fns : ParseFns) (first : Bool) (p : parser_t) :
    mu_json_err_t × parser_t :=
  let p := skip_whitespace p
  if at_eos p then (.NONE, p)
  else if peek_char p == 93 then (.NONE, p)
  else
    let step : mu_json_err_t × parser_t :=
      if first then (.NONE, p) else find_and_skip p 44
    match step with
    | (.NONE, p) =>
      match fns.element p with
      | (.NONE, p) => fns.arrloop false p
      | r => r
    | r => r

/-- Fuelled knot-tying of the mutual recursion.  Exhaustion (unreachable on
real runs, see the header comment) yields `TOO_DEEP`. -/
def parse_core : Nat → ParseFns
  | 0 =>
    { element := fun p => (.TOO_DEEP, p),
      objloop := fun _ p => (.TOO_DEEP, p),
      arrloop := fun _ p => (.TOO_DEEP, p) }
  | fuel + 1 =>
    let f := parse_core fuel
    { element := parse_element_body f,
      objloop := object_loop_body f,
      arrloop := array_loop_body f }

-- ***************************************************************************
-- Public entry points (mu_json.c lines 170-178, 318-379)

/-- mu_json.c lines 329-379 (`parse_json`).  `str = none` and
`token_store_null = true` model null pointers.  Returns the C `int` result
(token count on success, negative error code on failure) together with the
token store contents. -/
def parse_json (str : Option (List Nat)) (str_len : Int)
    (token_store_null : Bool) (max_tokens : Int) : Int × List mu_json_token_t :=
  match str with
  | none => (mu_json_err_t.BAD_ARGUMENT.code, [])
  | some s =>
    if token_store_null then (mu_json_err_t.BAD_ARGUMENT.code, [])
    else if str_len = 0 then (mu_json_err_t.BAD_ARGUMENT.code, [])
    else if max_tokens = 0 then (mu_json_err_t.BAD_ARGUMENT.code, [])
    else
      let p0 : parser_t :=
        { str := s, str_len := str_len, str_pos := 0, tokens := [],
          max_tokens := max_tokens, level := 0 }
      let fuel := 2 * str_len.toNat + 8
      match (parse_core fuel).element p0 with
      | (.NONE, p) =>
        if p.tokens.length = 0 then (mu_json_err_t.NO_ENTITIES.code, p.tokens)
        else
          let p := skip_whitespace p
          if !at_eos p then (mu_json_err_t.STRAY_INPUT.code, p.tokens)
          else ((p.tokens.length : Int), set_last_token p.tokens)
      | (err, p) => (err.code, p.tokens)

/-- The length computed by `strlen` on a byte list viewed as a C string. -/
def strlen (s : List Nat) : Nat := (s.takeWhile (fun c => c ≠ 0)).length

/-- mu_json.c lines 170-173 (`mu_json_parse_str`). -/
def mu_json_parse_str (str : Option (List Nat)) (token_store_null : Bool)
    (max_tokens : Int) : Int × List mu_json_token_t :=
  parse_json str (match str with | none => 0 | some s => (strlen s : Int))
    token_store_null max_tokens

/-- mu_json.c lines 175-178 (`mu_json_parse_buffer`). -/
def mu_json_parse_buffer (input : Option (List Nat)) (input_len : Int)
    (token_store_null : Bool) (max_tokens : Int) : Int × List mu_json_token_t :=
  parse_json input input_len token_store_null max_tokens

-- ***************************************************************************
-- Token navigation (mu_json.c lines 248-302, 975-992).  A token reference is
-- an index into the finalized store; the C pointer arithmetic `&token[±1]`
-- becomes index arithmetic.

/-- mu_json.c lines 102-105: `token_is_first` tests `level == 0`. -/
def token_is_first (ts : List mu_json_token_t) (i : Nat) : Bool :=
  (ts.getD i default).level = 0

/-- mu_json.c lines 108-111. -/
def token_is_last (ts : List mu_json_token_t) (i : Nat) : Bool :=
  (ts.getD i default).is_last

/-- mu_json.c lines 257-261 (`mu_json_find_next_token`), for a non-null
token reference. -/
def mu_json_find_next_token (ts : List mu_json_token_t) (i : Nat) : Option Nat :=
  if token_is_last ts i then none else some (i + 1)

/-- mu_json.c lines 263-267 (`mu_json_find_prev_token`), for a non-null
token reference. -/
def mu_json_find_prev_token (ts : List mu_json_token_t) (i : Nat) : Option Nat :=
  if token_is_first ts i then none else some (i - 1)

/-- Backward walk of `mu_json_find_parent_token` (mu_json.c lines 276-280):
step to the previous token while its level exceeds `target`.  Walking off
the front of the store (impossible for stores produced by a successful
parse, where index 0 has level 0) returns `none`. -/
def parent_walk (ts : List mu_json_token_t) (target : Nat) : Nat → Option Nat
  | 0 => if (ts.getD 0 default).level > target then none else some 0
  | i + 1 =>
    if (ts.getD (i + 1) default).level > target then parent_walk ts target i
    else some (i + 1)

/-- mu_json.c lines 269-283 (`mu_json_find_parent_token`). -/
def mu_json_find_parent_token (ts : List mu_json_token_t) (i : Nat) : Option Nat :=
  if token_is_first ts i then none
  else parent_walk ts ((ts.getD i default).level - 1) i

/-- mu_json.c lines 285-294 (`mu_json_find_child_token`). -/
def mu_json_find_child_token (ts : List mu_json_token_t) (i : Nat) : Option Nat :=
  if token_is_last ts i then none
  else
    match mu_json_find_next_token ts i with
    | none => none
    | some j =>
      if (ts.getD j default).level ≤ (ts.getD i default).level then none
      else some j

-- ***************************************************************************
-- Emitter data model (mu_jems.h lines 50-64)

structure mu_jems_level_t : Type where
  item_count : Nat
  is_object : Bool
deriving DecidableEq, Repr

instance : Inhabited mu_jems_level_t := ⟨{ item_count := 0, is_object := false }⟩

/-- Emitter state (`mu_jems_t`).  The writer callback of the C API is
modelled by accumulating, in `out`, the bytes passed to it, in call order;
`levels` is the caller-supplied frame stack of capacity `max_level`. -/
structure mu_jems_t : Type where
  levels : List mu_jems_level_t
  max_level : Nat
  curr_level : Nat
  out : List Nat
deriving Repr

/-- Replace the frame at index `i` by `f` applied to it. -/
def modifyLvl : List mu_jems_level_t → Nat → (mu_jems_level_t → mu_jems_level_t) →
    List mu_jems_level_t
  | [], _, _ => []
  | l :: ls, 0, f => f l :: ls
  | l :: ls, n + 1, f => l :: modifyLvl ls n f

/-- mu_jems.c lines 306-308 (`level_ref`), as a read. -/
def level_ref (j : mu_jems_t) : mu_jems_level_t := j.levels.getD j.curr_level default

/-- mu_jems.c lines 241-244 (`emit_char`): one writer call. -/
def emit_char (j : mu_jems_t) (ch : Nat) : mu_jems_t := { j with out := j.out ++ [ch] }

/-- mu_jems.c lines 260-265 (`emit_string`): one writer call per byte. -/
def emit_string (j : mu_jems_t) (s : List Nat) : mu_jems_t := { j with out := j.out ++ s }

/-- mu_jems.c lines 225-232 (`push_level`).  The C guard is the `size_t`
comparison `curr_level < max_level - 1`, which wraps around when
`max_level == 0`. -/
def push_level (j : mu_jems_t) (is_object : Bool) : mu_jems_t :=
  if j.max_level = 0 || j.curr_level < j.max_level - 1 then
    let j := { j with curr_level := j.curr_level + 1 }
    let f := fun (_ : mu_jems_level_t) =>
      ({ item_count := 0, is_object := is_object } : mu_jems_level_t)
    { j with levels := modifyLvl j.levels j.curr_level f }
  else j

/-- mu_jems.c lines 234-239 (`pop_level`). -/
def pop_level (j : mu_jems_t) : mu_jems_t :=
  if j.curr_level > 0 then { j with curr_level := j.curr_level - 1 } else j

/-- mu_jems.c lines 283-304 (`commify`): emit the separator demanded by the
current frame, then count this emission. -/
def commify (j : mu_jems_t) : mu_jems_t :=
  let lvl := level_ref j
  let j :=
    if lvl.is_object then
      if lvl.item_count > 0 then
        emit_char j (if lvl.item_count % 2 = 1 then 58 else 44)
      else j
    else
      if lvl.item_count > 0 then emit_char j 44 else j
  let f := fun (l : mu_jems_level_t) => { l with item_count := l.item_count + 1 }
  { j with levels := modifyLvl j.levels j.curr_level f }

/-- mu_jems.c lines 72-77 (`mu_jems_reset`). -/
def mu_jems_reset (j : mu_jems_t) : mu_jems_t :=
  let j := { j with curr_level := 0 }
  let f := fun (_ : mu_jems_level_t) =>
    ({ item_count := 0, is_object := false } : mu_jems_level_t)
  { j with levels := modifyLvl j.levels 0 f }

/-- mu_jems.c lines 62-70 (`mu_jems_init`), with the writer modelled by the
empty output accumulator. -/
def mu_jems_init (levels : List mu_jems_level_t) (max_level : Nat) : mu_jems_t :=
  mu_jems_reset { levels := levels, max_level := max_level, curr_level := 0, out := [] }

/-- mu_jems.c lines 79-83. -/
def mu_jems_object_open (j : mu_jems_t) : mu_jems_t :=
  push_level (emit_char (commify j) 123) true

/-- mu_jems.c lines 85-88. -/
def mu_jems_object_close (j : mu_jems_t) : mu_jems_t :=
  pop_level (emit_char j 125)

/-- mu_jems.c lines 90-94. -/
def mu_jems_array_open (j : mu_jems_t) : mu_jems_t :=
  push_level (emit_char (commify j) 91) false

/-- mu_jems.c lines 96-99. -/
def mu_jems_array_close (j : mu_jems_t) : mu_jems_t :=
  pop_level (emit_char j 93)

/-- Decimal digit bytes of a natural number, most significant first
(the digit loop behind `snprintf("%" PRId64)`).  The fuel bound 25 exceeds
the 20 digits an `int64_t` can need. -/
def natDigitsAux : Nat → Nat → List Nat
  | 0, _ => []
  | fuel + 1, n =>
    if n < 10 then [48 + n]
    else natDigitsAux fuel (n / 10) ++ [48 + n % 10]

def natDigits (n : Nat) : List Nat := natDigitsAux 25 n

/-- Decimal byte representation of an integer, with a leading minus sign for
negative values (`snprintf("%" PRId64, v)`). -/
def intDigits (v : Int) : List Nat :=
  if v < 0 then 45 :: natDigits (-v).toNat else natDigits v.toNat

/-- Truncation toward zero of a rational, modelling the C cast
`(int64_t)value` of a `double` (no overflow modelling; the development only
evaluates it on small values). -/
def rat_trunc (q : ℚ) : Int :=
  if 0 ≤ q.num then ((q.num.toNat / q.den : Nat) : Int)
  else -(((-q.num).toNat / q.den : Nat) : Int)

/-- Byte output of `snprintf("%lf", v)`: fixed-point notation with exactly
six fractional digits.  The scaled value is rounded to nearest (half away
from zero); for the exactly representable values this development evaluates
it on, this agrees with the C library. -/
def format_lf (q : ℚ) : List Nat :=
  let n : Nat := if 0 ≤ q.num then q.num.toNat else (-q.num).toNat
  let scaled : Nat := (n * 1000000 * 2 + q.den) / (2 * q.den)
  let ip := scaled / 1000000
  let fp := scaled % 1000000
  let ds := natDigits fp
  let body := natDigits ip ++ [46] ++ (List.replicate (6 - ds.length) 48 ++ ds)
  if q.num < 0 then 45 :: body else body

/-- mu_jems.c lines 101-112 (`mu_jems_number`).  The C `double` argument is
modelled as an exact rational. -/
def mu_jems_number (j : mu_jems_t) (value : ℚ) : mu_jems_t :=
  let i := rat_trunc value
  let buf := if (i : ℚ) = value then intDigits i else format_lf value
  emit_string (commify j) buf

/-- mu_jems.c lines 114-119 (`mu_jems_integer`). -/
def mu_jems_integer (j : mu_jems_t) (value : Int) : mu_jems_t :=
  emit_string (commify j) (intDigits value)

/-- Lowercase hex digit byte for a value below 16. -/
def hexDigit (n : Nat) : Nat := if n < 10 then 48 + n else 87 + n

/-- mu_jems.c lines 246-258 (`emit_quoted_byte`). -/
def emit_quoted_byte (j : mu_jems_t) (b : Nat) : mu_jems_t :=
  if b < 32 || b ≥ 127 then
    emit_string j
      [92, 117, hexDigit (b / 4096 % 16), hexDigit (b / 256 % 16),
       hexDigit (b / 16 % 16), hexDigit (b % 16)]
  else
    let j := if b == 92 || b == 34 then emit_char j 92 else j
    emit_char j b

/-- mu_jems.c lines 267-272 (`emit_quoted_string`). -/
def emit_quoted_string (j : mu_jems_t) (s : List Nat) : mu_jems_t :=
  s.foldl emit_quoted_byte j

/-- mu_jems.c lines 121-126 (`mu_jems_string`). -/
def mu_jems_string (j : mu_jems_t) (s : List Nat) : mu_jems_t :=
  emit_char (emit_quoted_string (emit_char (commify j) 34) s) 34

/-- mu_jems.c lines 140-143 (`mu_jems_true`). -/
def mu_jems_true (j : mu_jems_t) : mu_jems_t :=
  emit_string (commify j) [116, 114, 117, 101]

/-- mu_jems.c lines 168-174: `mu_jems_key_array_open`. -/
def mu_jems_key_array_open (j : mu_jems_t) (key : List Nat) : mu_jems_t :=
  mu_jems_array_open (mu_jems_string j key)

/-- mu_jems.c lines 180-183 (`mu_jems_key_integer`). -/
def mu_jems_key_integer (j : mu_jems_t) (key : List Nat) (value : Int) : mu_jems_t :=
  mu_jems_integer (mu_jems_string j key) value

-- ***************************************************************************
-- Statement support: invariants relating parser states

/-- Fields of the parser state that no parsing function changes. -/
def same_cfg (p q : parser_t) : Prop :=
  q.str = p.str ∧ q.str_len = p.str_len ∧ q.max_tokens = p.max_tokens

/-- Token-store evolution invariant: a parsing step only appends tokens
(and mutates tokens it appended itself), and every token it writes has
`is_last = false` — `is_last` is set only by `parse_json` at the very end. -/
def TokInv (p q : parser_t) : Prop :=
  same_cfg p q ∧ ∃ new, q.tokens = p.tokens ++ new ∧ ∀ t ∈ new, t.is_last = false

/-- All three components of a `ParseFns` bundle respect the token-store
invariant. -/
def FnsInv (fns : ParseFns) : Prop :=
  (∀ p, TokInv p (fns.element p).2) ∧
  (∀ b p, TokInv p (fns.objloop b p).2) ∧
  (∀ b p, TokInv p (fns.arrloop b p).2)

/-- A concrete parser state positioned at the start of the input `"42"`,
used to instantiate universally quantified statements about
`parse_number`. -/
def c5p : parser_t :=
  { str := [52, 50], str_len := 2, str_pos := 0, tokens := [],
    max_tokens := 4, level := 0 }

-- ***************************************************************************
-- Lemmas about modifyTok

theorem modifyTok_length (ts : List mu_json_token_t) (i : Nat)
    (f : mu_json_token_t → mu_json_token_t) : (modifyTok ts i f).length = ts.length := by
  induction ts generalizing i with
  | nil => rfl
  | cons t ts ih => cases i <;> simp [modifyTok, ih]

theorem modifyTok_append (a b : List mu_json_token_t)
    (f : mu_json_token_t → mu_json_token_t) :
    modifyTok (a ++ b) a.length f = a ++ modifyTok b 0 f := by
  induction a with
  | nil => rfl
  | cons t ts ih => simp [modifyTok, ih]

theorem modifyTok_forall {P : mu_json_token_t → Prop}
    (ts : List mu_json_token_t) (i : Nat) (f : mu_json_token_t → mu_json_token_t)
    (hf : ∀ t, P t → P (f t)) (h : ∀ t ∈ ts, P t) :
    ∀ t ∈ modifyTok ts i f, P t := by
  induction ts generalizing i with
  | nil => simp [modifyTok]
  | cons t ts ih =>
    cases i with
    | zero =>
      intro u hu
      rcases List.mem_cons.mp hu with h1 | h1
      · exact h1 ▸ hf t (h t (List.mem_cons_self t ts))
      · exact h u (List.mem_cons_of_mem t h1)
    | succ n =>
      intro u hu
      rcases List.mem_cons.mp hu with h1 | h1
      · exact h1 ▸ h t (List.mem_cons_self t ts)
      · exact ih n (fun v hv => h v (List.mem_cons_of_mem t hv)) u h1

theorem modifyTok_getD_ne (ts : List mu_json_token_t) (i j : Nat)
    (f : mu_json_token_t → mu_json_token_t) (d : mu_json_token_t) (h : i ≠ j) :
    (modifyTok ts i f).getD j d = ts.getD j d := by
  induction ts generalizing i j with
  | nil => rfl
  | cons t ts ih =>
    cases i with
    | zero =>
      cases j with
      | zero => exact absurd rfl h
      | succ m => simp [modifyTok]
    | succ n =>
      cases j with
      | zero => simp [modifyTok]
      | succ m => simpa [modifyTok] using ih n m (fun hh => h (by omega))

theorem modifyTok_getD_eq (ts : List mu_json_token_t) (i : Nat)
    (f : mu_json_token_t → mu_json_token_t) (d : mu_json_token_t)
    (h : i < ts.length) :
    (modifyTok ts i f).getD i d = f (ts.getD i d) := by
  induction ts generalizing i with
  | nil => simp at h
  | cons t ts ih =>
    cases i with
    | zero => simp [modifyTok]
    | succ n => simpa [modifyTok] using ih n (by simpa using h)

-- ***************************************************************************
-- Shape lemmas: the scanning loops only move the cursor

theorem skip_ws_shape (fuel : Nat) : ∀ p : parser_t,
    ∃ k, p.str_pos ≤ k ∧ skip_ws fuel p = { p with str_pos := k } := by
  induction fuel with
  | zero => intro p; exact ⟨p.str_pos, le_rfl, rfl⟩
  | succ fuel ih =>
    intro p
    unfold skip_ws
    split
    · exact ⟨p.str_pos, le_rfl, rfl⟩
    · split
      · obtain ⟨k, hk, he⟩ := ih (advance p)
        exact ⟨k, by simpa [advance] using Nat.le_of_succ_le hk, by simpa [advance] using he⟩
      · exact ⟨p.str_pos, le_rfl, rfl⟩

theorem skip_whitespace_shape (p : parser_t) :
    ∃ k, p.str_pos ≤ k ∧ skip_whitespace p = { p with str_pos := k } :=
  skip_ws_shape _ p

theorem scan_digits_spec (fuel : Nat) : ∀ p : parser_t,
    ∃ k, p.str_pos ≤ k ∧ (scan_digits fuel p).2 = { p with str_pos := k } ∧
      ∀ m, p.str_pos ≤ m → m < k → is_digit (p.str.getD m 0) = true := by
  induction fuel with
  | zero => intro p; exact ⟨p.str_pos, le_rfl, rfl, fun m h1 h2 => absurd h2 (by omega)⟩
  | succ fuel ih =>
    intro p
    unfold scan_digits
    split
    · exact ⟨p.str_pos, le_rfl, rfl, fun m h1 h2 => absurd h2 (by omega)⟩
    · split
      · obtain ⟨k, hk, he, hd⟩ := ih (advance p)
        refine ⟨k, ?_, by simpa [advance] using he, ?_⟩
        · simp only [advance] at hk; omega
        · intro m h1 h2
          rcases Nat.eq_or_lt_of_le h1 with h3 | h3
          · subst h3; assumption
          · exact hd m (by simp [advance]; omega) h2
      · exact ⟨p.str_pos, le_rfl, rfl, fun m h1 h2 => absurd h2 (by omega)⟩

theorem string_scan_shape (fuel : Nat) : ∀ p : parser_t,
    ∃ k, p.str_pos ≤ k ∧ (string_scan fuel p).2 = { p with str_pos := k } := by
  induction fuel with
  | zero => intro p; exact ⟨p.str_pos, le_rfl, rfl⟩
  | succ fuel ih =>
    intro p
    unfold string_scan
    dsimp only []
    split
    · exact ⟨p.str_pos, le_rfl, rfl⟩
    · split
      · -- backslash branch
        split
        · exact ⟨p.str_pos + 1, by omega, rfl⟩
        · split
          · obtain ⟨k, hk, he⟩ := ih (advance (advance p))
            exact ⟨k, by simp [advance] at hk ⊢; omega, by simpa [advance] using he⟩
          · split
            · -- \u branch
              split
              · exact ⟨p.str_pos + 2, by omega, by simp [advance]⟩
              · split
                · exact ⟨p.str_pos + 3, by omega, by simp [advance]⟩
                · split
                  · exact ⟨p.str_pos + 4, by omega, by simp [advance]⟩
                  · split
                    · exact ⟨p.str_pos + 5, by omega, by simp [advance]⟩
                    · obtain ⟨k, hk, he⟩ :=
                        ih (advance (advance (advance (advance (advance (advance p))))))
                      exact ⟨k, by simp [advance] at hk ⊢; omega,
                             by simpa [advance] using he⟩
            · exact ⟨p.str_pos + 1, by omega, rfl⟩
      · split
        · exact ⟨p.str_pos, le_rfl, rfl⟩
        · split
          · exact ⟨p.str_pos, le_rfl, rfl⟩
          · split
            · exact ⟨p.str_pos, le_rfl, rfl⟩
            · obtain ⟨k, hk, he⟩ := ih (advance p)
              exact ⟨k, by simp [advance] at hk ⊢; omega, by simpa [advance] using he⟩

theorem match_lit_shape (lit : List Nat) : ∀ p : parser_t,
    ∃ k, p.str_pos ≤ k ∧ (match_lit lit p).2 = { p with str_pos := k } := by
  induction lit with
  | nil => intro p; exact ⟨p.str_pos, le_rfl, rfl⟩
  | cons c cs ih =>
    intro p
    unfold match_lit
    dsimp only []
    split
    · exact ⟨p.str_pos, le_rfl, rfl⟩
    · split
      · exact ⟨p.str_pos + 1, by omega, rfl⟩
      · obtain ⟨k, hk, he⟩ := ih (advance p)
        exact ⟨k, by simp [advance] at hk ⊢; omega, by simpa [advance] using he⟩

theorem find_and_skip_shape (p : parser_t) (d : Nat) :
    ∃ k, (find_and_skip p d).2 = { p with str_pos := k } := by
  unfold find_and_skip
  obtain ⟨k1, hk1, he1⟩ := skip_whitespace_shape p
  rw [he1]
  dsimp only []
  split
  · exact ⟨k1, rfl⟩
  · split
    · exact ⟨k1, rfl⟩
    · obtain ⟨k2, hk2, he2⟩ := skip_whitespace_shape (advance { p with str_pos := k1 })
      rw [he2]
      split
      · exact ⟨k2, rfl⟩
      · exact ⟨k2, rfl⟩

-- ***************************************************************************
-- Token-store invariant: reflexivity, transitivity, basic steps

theorem TokInv_refl (p : parser_t) : TokInv p p :=
  ⟨⟨rfl, rfl, rfl⟩, [], by simp, by simp⟩

theorem TokInv_trans {p q r : parser_t} (h1 : TokInv p q) (h2 : TokInv q r) :
    TokInv p r := by
  obtain ⟨⟨c1, c2, c3⟩, n1, e1, l1⟩ := h1
  obtain ⟨⟨d1, d2, d3⟩, n2, e2, l2⟩ := h2
  refine ⟨⟨d1.trans c1, d2.trans c2, d3.trans c3⟩, n1 ++ n2, ?_, ?_⟩
  · rw [e2, e1, List.append_assoc]
  · intro t ht
    rcases List.mem_append.mp ht with h | h
    · exact l1 t h
    · exact l2 t h

/-- Build `TokInv` for a state that appended exactly one token. -/
theorem TokInv_one {p q : parser_t} (tok : mu_json_token_t)
    (hstr : q.str = p.str) (hlen : q.str_len = p.str_len)
    (hmax : q.max_tokens = p.max_tokens)
    (htok : q.tokens = p.tokens ++ [tok]) (hl : tok.is_last = false) : TokInv p q :=
  ⟨⟨hstr, hlen, hmax⟩, [tok], htok, by simp [hl]⟩

theorem new_tok_is_last (p : parser_t) (ty : mu_json_token_type_t) :
    (new_tok p ty).is_last = false := rfl

theorem modifyTok_append_ge (a b : List mu_json_token_t)
    (f : mu_json_token_t → mu_json_token_t) (idx : Nat) (h : a.length ≤ idx) :
    modifyTok (a ++ b) idx f = a ++ modifyTok b (idx - a.length) f := by
  induction a generalizing idx with
  | nil => simp
  | cons t ts ih =>
    cases idx with
    | zero => simp at h
    | succ n =>
      have hh : ts.length ≤ n := by simpa using h
      show t :: modifyTok (ts ++ b) n f = t :: (ts ++ modifyTok b (n + 1 - (ts.length + 1)) f)
      rw [ih n hh, Nat.succ_sub_succ]

/-- `finalize_token` at an index at or beyond the caller's prefix preserves
the token-store invariant (it only rewrites `str_len` of an own token). -/
theorem TokInv_finalize {p q : parser_t} (h : TokInv p q) {idx : Nat}
    (hi : p.tokens.length ≤ idx) : TokInv p (finalize_token q idx) := by
  obtain ⟨⟨c1, c2, c3⟩, nw, he, hl⟩ := h
  refine ⟨⟨c1, c2, c3⟩, modifyTok nw (idx - p.tokens.length)
    (fun t => { t with str_len := (q.str_pos - t.start) % 65536 }), ?_, ?_⟩
  · show modifyTok q.tokens idx _ = _
    rw [he, modifyTok_append_ge _ _ _ _ hi]
  · exact modifyTok_forall _ _ _ (fun t ht => ht) hl

/-- `set_token_type` at an index at or beyond the caller's prefix preserves
the token-store invariant. -/
theorem TokInv_set_type {p q : parser_t} (h : TokInv p q) {idx : Nat}
    (hi : p.tokens.length ≤ idx) (ty : mu_json_token_type_t) :
    TokInv p (set_token_type q idx ty) := by
  obtain ⟨⟨c1, c2, c3⟩, nw, he, hl⟩ := h
  refine ⟨⟨c1, c2, c3⟩, modifyTok nw (idx - p.tokens.length)
    (fun t => { t with type := ty }), ?_, ?_⟩
  · show modifyTok q.tokens idx _ = _
    rw [he, modifyTok_append_ge _ _ _ _ hi]
  · exact modifyTok_forall _ _ _ (fun t ht => ht) hl

theorem init_token_eq {p q : parser_t} {ty : mu_json_token_type_t}
    (h : init_token p ty = some q) :
    q = { p with tokens := p.tokens ++ [new_tok p ty] } := by
  unfold init_token at h
  split at h
  · exact (Option.some.inj h).symm
  · exact absurd h (by simp)

-- ***************************************************************************
-- TokInv for the scalar parsers

theorem parse_string_inv (p : parser_t) : TokInv p (parse_string p).2 := by
  unfold parse_string
  dsimp only []
  split
  · exact TokInv_refl p
  · cases hinit : init_token p .STRING with
    | none => exact TokInv_refl p
    | some p1 =>
      dsimp only []
      have hp1 := init_token_eq hinit
      subst hp1
      split
      next p2 heq =>
        obtain ⟨k, hk, hs⟩ := string_scan_shape
          (remaining (advance { p with tokens := p.tokens ++ [new_tok p .STRING] }) + 1)
          (advance { p with tokens := p.tokens ++ [new_tok p .STRING] })
        rw [heq] at hs
        dsimp only [] at hs
        subst hs
        split
        · exact TokInv_one (new_tok p .STRING) rfl rfl rfl rfl rfl
        · split
          · exact TokInv_one (new_tok p .STRING) rfl rfl rfl rfl rfl
          · refine TokInv_finalize ?_ le_rfl
            exact TokInv_one (new_tok p .STRING) rfl rfl rfl rfl rfl
      next r heq =>
        obtain ⟨k, hk, hs⟩ := string_scan_shape
          (remaining (advance { p with tokens := p.tokens ++ [new_tok p .STRING] }) + 1)
          (advance { p with tokens := p.tokens ++ [new_tok p .STRING] })
        rw [hs]
        exact TokInv_one (new_tok p .STRING) rfl rfl rfl rfl rfl

-- ***************************************************************************
-- TokInv is preserved by the cursor-only steps

theorem TokInv_same {p q r : parser_t} (h : TokInv p q) (h1 : r.str = q.str)
    (h2 : r.str_len = q.str_len) (h3 : r.max_tokens = q.max_tokens)
    (h4 : r.tokens = q.tokens) : TokInv p r := by
  obtain ⟨⟨c1, c2, c3⟩, nw, he, hl⟩ := h
  exact ⟨⟨h1.trans c1, h2.trans c2, h3.trans c3⟩, nw, h4.trans he, hl⟩

theorem TokInv_advance {p q : parser_t} (h : TokInv p q) : TokInv p (advance q) :=
  TokInv_same h rfl rfl rfl rfl

theorem TokInv_setpos {p q : parser_t} (h : TokInv p q) (k : Nat) :
    TokInv p { q with str_pos := k } :=
  TokInv_same h rfl rfl rfl rfl

theorem TokInv_ite {p q : parser_t} (h : TokInv p q) (c : Prop) [Decidable c] :
    TokInv p (if c then advance q else q) := by
  split
  · exact TokInv_advance h
  · exact h

theorem TokInv_skip_ws {p q : parser_t} (h : TokInv p q) :
    TokInv p (skip_whitespace q) := by
  obtain ⟨k, hk, he⟩ := skip_whitespace_shape q
  rw [he]
  exact TokInv_setpos h k

theorem TokInv_find_and_skip {p q : parser_t} (h : TokInv p q) (d : Nat) :
    TokInv p (find_and_skip q d).2 := by
  obtain ⟨k, he⟩ := find_and_skip_shape q d
  rw [he]
  exact TokInv_setpos h k

theorem TokInv_scan_digits {p q : parser_t} (h : TokInv p q) (fuel : Nat) :
    TokInv p (scan_digits fuel q).2 := by
  obtain ⟨k, hk, he, hd⟩ := scan_digits_spec fuel q
  rw [he]
  exact TokInv_setpos h k

-- ***************************************************************************
-- TokInv for parse_literal and parse_number

theorem parse_literal_inv (p : parser_t) (lit : List Nat)
    (ty : mu_json_token_type_t) : TokInv p (parse_literal p lit ty).2 := by
  unfold parse_literal
  dsimp only []
  split
  · exact TokInv_refl p
  · cases hinit : init_token p ty with
    | none => exact TokInv_refl p
    | some p1 =>
      dsimp only []
      have hp1 := init_token_eq hinit
      subst hp1
      have hbase : TokInv p { p with tokens := p.tokens ++ [new_tok p ty] } :=
        TokInv_one (new_tok p ty) rfl rfl rfl rfl rfl
      split
      next p2 heq =>
        obtain ⟨k, hk, hs⟩ :=
          match_lit_shape lit { p with tokens := p.tokens ++ [new_tok p ty] }
        rw [heq] at hs
        dsimp only [] at hs
        subst hs
        refine TokInv_finalize ?_ le_rfl
        exact TokInv_one (new_tok p ty) rfl rfl rfl rfl rfl
      next r heq =>
        obtain ⟨k, hk, hs⟩ :=
          match_lit_shape lit { p with tokens := p.tokens ++ [new_tok p ty] }
        rw [hs]
        exact TokInv_setpos hbase k

theorem number_tail_exp_inv {p q : parser_t} (h : TokInv p q) {idx : Nat}
    (hi : p.tokens.length ≤ idx) : TokInv p (number_tail_exp q idx).2 := by
  unfold number_tail_exp
  dsimp only []
  split
  · have h1 : TokInv p (advance (set_token_type q idx .NUMBER)) :=
      TokInv_advance (TokInv_set_type h hi .NUMBER)
    split
    · split
      · exact TokInv_scan_digits (TokInv_advance h1) _
      · exact TokInv_finalize (TokInv_scan_digits (TokInv_advance h1) _) hi
    · split
      · exact TokInv_scan_digits h1 _
      · exact TokInv_finalize (TokInv_scan_digits h1 _) hi
  · exact TokInv_finalize h hi

theorem number_tail_frac_inv {p q : parser_t} (h : TokInv p q) {idx : Nat}
    (hi : p.tokens.length ≤ idx) : TokInv p (number_tail_frac q idx).2 := by
  unfold number_tail_frac
  dsimp only []
  split
  · have h1 : TokInv p (advance (set_token_type q idx .NUMBER)) :=
      TokInv_advance (TokInv_set_type h hi .NUMBER)
    split
    · exact TokInv_scan_digits h1 _
    · exact number_tail_exp_inv (TokInv_scan_digits h1 _) hi
  · exact number_tail_exp_inv h hi

theorem parse_number_inv (p : parser_t) : TokInv p (parse_number p).2 := by
  unfold parse_number
  dsimp only []
  split
  · exact TokInv_refl p
  · cases hinit : init_token p .INTEGER with
    | none => exact TokInv_refl p
    | some p1 =>
      dsimp only []
      have hbase : TokInv p p1 := by
        rw [init_token_eq hinit]
        exact TokInv_one (new_tok p .INTEGER) rfl rfl rfl rfl rfl
      have h2 : TokInv p (if (peek_char p1 == 45) = true then advance p1 else p1) :=
        TokInv_ite hbase _
      generalize hq2 : (if (peek_char p1 == 45) = true then advance p1 else p1) = q2 at h2 ⊢
      split
      · exact h2
      · have h3 : TokInv p (if (!at_eos q2 && peek_char q2 == 48) = true
            then advance q2 else q2) := TokInv_ite h2 _
        generalize hq3 : (if (!at_eos q2 && peek_char q2 == 48) = true
            then advance q2 else q2) = q3 at h3 ⊢
        split
        · exact h3
        · have h4 := TokInv_scan_digits h3 (remaining q3 + 1)
          generalize hr : scan_digits (remaining q3 + 1) q3 = r at h4 ⊢
          split
          · exact h4
          · split
            · exact h4
            · exact number_tail_frac_inv h4 le_rfl

-- ***************************************************************************
-- TokInv for containers, element dispatch, and the fuelled knot

theorem parse_object_given_inv (fns : ParseFns) (hf : FnsInv fns) (p : parser_t) :
    TokInv p (parse_object_given fns p).2 := by
  unfold parse_object_given
  dsimp only []
  split
  · exact TokInv_refl p
  · cases hinit : init_token p .OBJECT with
    | none => exact TokInv_refl p
    | some p1 =>
      dsimp only []
      have hbase : TokInv p p1 := by
        rw [init_token_eq hinit]
        exact TokInv_one (new_tok p .OBJECT) rfl rfl rfl rfl rfl
      have h2 : TokInv p (advance { p1 with level := p1.level + 1 }) :=
        TokInv_same hbase rfl rfl rfl rfl
      split
      next p3 heq =>
        have h3 : TokInv p p3 := by
          have hl := hf.2.1 true (advance { p1 with level := p1.level + 1 })
          rw [heq] at hl
          exact TokInv_trans h2 hl
        split
        · exact h3
        · split
          · exact h3
          · refine TokInv_finalize ?_ le_rfl
            exact TokInv_same h3 rfl rfl rfl rfl
      next r heq =>
        exact TokInv_trans h2 (hf.2.1 true (advance { p1 with level := p1.level + 1 }))

theorem parse_array_given_inv (fns : ParseFns) (hf : FnsInv fns) (p : parser_t) :
    TokInv p (parse_array_given fns p).2 := by
  unfold parse_array_given
  dsimp only []
  split
  · exact TokInv_refl p
  · cases hinit : init_token p .ARRAY with
    | none => exact TokInv_refl p
    | some p1 =>
      dsimp only []
      have hbase : TokInv p p1 := by
        rw [init_token_eq hinit]
        exact TokInv_one (new_tok p .ARRAY) rfl rfl rfl rfl rfl
      have h2 : TokInv p (advance { p1 with level := p1.level + 1 }) :=
        TokInv_same hbase rfl rfl rfl rfl
      split
      next p3 heq =>
        have h3 : TokInv p p3 := by
          have hl := hf.2.2 true (advance { p1 with level := p1.level + 1 })
          rw [heq] at hl
          exact TokInv_trans h2 hl
        split
        · exact h3
        · split
          · exact h3
          · refine TokInv_finalize ?_ le_rfl
            exact TokInv_same h3 rfl rfl rfl rfl
      next r heq =>
        exact TokInv_trans h2 (hf.2.2 true (advance { p1 with level := p1.level + 1 }))

theorem parse_element_body_inv (fns : ParseFns) (hf : FnsInv fns) (p : parser_t) :
    TokInv p (parse_element_body fns p).2 := by
  unfold parse_element_body
  dsimp only []
  have h1 : TokInv p (skip_whitespace p) := TokInv_skip_ws (TokInv_refl p)
  generalize hps : skip_whitespace p = p1 at h1 ⊢
  split
  · exact h1
  · split
    · exact TokInv_trans h1 (parse_string_inv p1)
    · split
      · exact TokInv_trans h1 (parse_number_inv p1)
      · split
        · exact TokInv_trans h1 (parse_literal_inv p1 _ _)
        · split
          · exact TokInv_trans h1 (parse_literal_inv p1 _ _)
          · split
            · exact TokInv_trans h1 (parse_literal_inv p1 _ _)
            · split
              · exact TokInv_trans h1 (parse_object_given_inv fns hf p1)
              · split
                · exact TokInv_trans h1 (parse_array_given_inv fns hf p1)
                · split
                  · exact h1
                  · exact h1

theorem object_loop_body_inv (fns : ParseFns) (hf : FnsInv fns) (first : Bool)
    (p : parser_t) : TokInv p (object_loop_body fns first p).2 := by
  unfold object_loop_body
  dsimp only []
  have h1 : TokInv p (skip_whitespace p) := TokInv_skip_ws (TokInv_refl p)
  generalize hps : skip_whitespace p = p1 at h1 ⊢
  split
  · exact h1
  · split
    · exact h1
    · split
      next p2 heq =>
        have h2 : TokInv p p2 := by
          cases first with
          | true =>
            cases heq
            exact h1
          | false =>
            have heq2 : find_and_skip p1 44 = (mu_json_err_t.NONE, p2) := by
              simpa using heq
            have hfs := TokInv_find_and_skip h1 44
            rw [heq2] at hfs
            exact hfs
        split
        next p3 heq2 =>
          have h3 : TokInv p p3 := by
            have hps := parse_string_inv p2
            rw [heq2] at hps
            exact TokInv_trans h2 hps
          split
          next p4 heq3 =>
            have h4 : TokInv p p4 := by
              have hfs := TokInv_find_and_skip h3 58
              rw [heq3] at hfs
              exact hfs
            split
            next p5 heq4 =>
              have h5 : TokInv p p5 := by
                have hel := hf.1 p4
                rw [heq4] at hel
                exact TokInv_trans h4 hel
              exact TokInv_trans h5 (hf.2.1 false p5)
            next r heq4 =>
              exact TokInv_trans h4 (hf.1 p4)
          next r heq3 =>
            exact TokInv_find_and_skip h3 58
        next r heq2 =>
          exact TokInv_trans h2 (parse_string_inv p2)
      next r heq =>
        cases first with
        | true =>
          exact absurd rfl (heq p1)
        | false =>
          exact TokInv_find_and_skip h1 44

theorem array_loop_body_inv (fns : ParseFns) (hf : FnsInv fns) (first : Bool)
    (p : parser_t) : TokInv p (array_loop_body fns first p).2 := by
  unfold array_loop_body
  dsimp only []
  have h1 : TokInv p (skip_whitespace p) := TokInv_skip_ws (TokInv_refl p)
  generalize hps : skip_whitespace p = p1 at h1 ⊢
  split
  · exact h1
  · split
    · exact h1
    · split
      next p2 heq =>
        have h2 : TokInv p p2 := by
          cases first with
          | true =>
            cases heq
            exact h1
          | false =>
            have heq2 : find_and_skip p1 44 = (mu_json_err_t.NONE, p2) := by
              simpa using heq
            have hfs := TokInv_find_and_skip h1 44
            rw [heq2] at hfs
            exact hfs
        split
        next p3 heq2 =>
          have h3 : TokInv p p3 := by
            have hel := hf.1 p2
            rw [heq2] at hel
            exact TokInv_trans h2 hel
          exact TokInv_trans h3 (hf.2.2 false p3)
        next r heq2 =>
          exact TokInv_trans h2 (hf.1 p2)
      next r heq =>
        cases first with
        | true =>
          exact absurd rfl (heq p1)
        | false =>
          exact TokInv_find_and_skip h1 44

theorem core_inv (fuel : Nat) : FnsInv (parse_core fuel) := by
  induction fuel with
  | zero =>
    exact ⟨fun p => TokInv_refl p, fun b p => TokInv_refl p, fun b p => TokInv_refl p⟩
  | succ fuel ih =>
    refine ⟨?_, ?_, ?_⟩
    · intro p
      show TokInv p (parse_element_body (parse_core fuel) p).2
      exact parse_element_body_inv _ ih p
    · intro b p
      show TokInv p (object_loop_body (parse_core fuel) b p).2
      exact object_loop_body_inv _ ih b p
    · intro b p
      show TokInv p (array_loop_body (parse_core fuel) b p).2
      exact array_loop_body_inv _ ih b p

-- The first token a parse function writes carries the entry nesting level

theorem head_none {p q : parser_t} (h : q.tokens = p.tokens) :
    ∀ t rest, q.tokens = p.tokens ++ t :: rest → t.level = p.level % 2048 := by
  intro t rest he
  rw [h] at he
  have hlen := congrArg List.length he
  simp at hlen

theorem head_single {p q : parser_t} {tok : mu_json_token_t}
    (h : q.tokens = p.tokens ++ [tok]) (hl : tok.level = p.level % 2048) :
    ∀ t rest, q.tokens = p.tokens ++ t :: rest → t.level = p.level % 2048 := by
  intro t rest he
  rw [h] at he
  have h3 := List.append_cancel_left he
  have h4 : tok = t := ((List.cons.injEq _ _ _ _).mp h3).1
  rw [← h4]
  exact hl

theorem head_chain {p q : parser_t} {tok : mu_json_token_t} {mid : List mu_json_token_t}
    (h : q.tokens = p.tokens ++ tok :: mid) (hl : tok.level = p.level % 2048) :
    ∀ t rest, q.tokens = p.tokens ++ t :: rest → t.level = p.level % 2048 := by
  intro t rest he
  rw [h] at he
  have h3 := List.append_cancel_left he
  have h4 : tok = t := ((List.cons.injEq _ _ _ _).mp h3).1
  rw [← h4]
  exact hl

theorem head_finalize {p q : parser_t} {ty : mu_json_token_type_t} {idx : Nat}
    (hidx : idx = p.tokens.length)
    (h : q.tokens = p.tokens ++ [new_tok p ty]) :
    ∀ t rest, (finalize_token q idx).tokens = p.tokens ++ t :: rest →
      t.level = p.level % 2048 := by
  intro t rest he
  subst hidx
  unfold finalize_token at he
  dsimp only [] at he
  rw [h, modifyTok_append] at he
  have h3 := List.append_cancel_left he
  have h4 := ((List.cons.injEq _ _ _ _).mp h3).1
  rw [← h4]
  rfl

theorem parse_string_head (p : parser_t) :
    ∀ t rest, (parse_string p).2.tokens = p.tokens ++ t :: rest →
      t.level = p.level % 2048 := by
  unfold parse_string
  dsimp only []
  split
  · exact head_none rfl
  · cases hinit : init_token p .STRING with
    | none => exact head_none rfl
    | some p1 =>
      dsimp only []
      have hp1 := init_token_eq hinit
      subst hp1
      split
      next p2 heq =>
        obtain ⟨k, hk, hs⟩ := string_scan_shape
          (remaining (advance { p with tokens := p.tokens ++ [new_tok p .STRING] }) + 1)
          (advance { p with tokens := p.tokens ++ [new_tok p .STRING] })
        rw [heq] at hs
        dsimp only [] at hs
        subst hs
        split
        · exact head_single rfl rfl
        · split
          · exact head_single rfl rfl
          · exact head_finalize rfl rfl
      next r heq =>
        obtain ⟨k, hk, hs⟩ := string_scan_shape
          (remaining (advance { p with tokens := p.tokens ++ [new_tok p .STRING] }) + 1)
          (advance { p with tokens := p.tokens ++ [new_tok p .STRING] })
        rw [hs]
        exact head_single rfl rfl

theorem parse_literal_head (p : parser_t) (lit : List Nat)
    (ty : mu_json_token_type_t) :
    ∀ t rest, (parse_literal p lit ty).2.tokens = p.tokens ++ t :: rest →
      t.level = p.level % 2048 := by
  unfold parse_literal
  dsimp only []
  split
  · exact head_none rfl
  · cases hinit : init_token p ty with
    | none => exact head_none rfl
    | some p1 =>
      dsimp only []
      have hp1 := init_token_eq hinit
      subst hp1
      split
      next p2 heq =>
        obtain ⟨k, hk, hs⟩ :=
          match_lit_shape lit { p with tokens := p.tokens ++ [new_tok p ty] }
        rw [heq] at hs
        dsimp only [] at hs
        subst hs
        exact head_finalize rfl rfl
      next r heq =>
        obtain ⟨k, hk, hs⟩ :=
          match_lit_shape lit { p with tokens := p.tokens ++ [new_tok p ty] }
        rw [hs]
        exact head_single rfl rfl

theorem number_tail_exp_toks {q : parser_t} {idx : Nat} {a : List mu_json_token_t}
    {tok : mu_json_token_t} (hq : q.tokens = a ++ [tok]) (hidx : idx = a.length) :
    ∃ tok2, (number_tail_exp q idx).2.tokens = a ++ [tok2] ∧ tok2.level = tok.level := by
  subst hidx
  unfold number_tail_exp
  dsimp only []
  have hset : (advance (set_token_type q a.length .NUMBER)).tokens =
      a ++ [{ tok with type := .NUMBER }] := by
    show modifyTok q.tokens a.length _ = _
    rw [hq, modifyTok_append]
    rfl
  split
  · split
    · obtain ⟨k, hk, he, hd⟩ := scan_digits_spec
        (remaining (advance (advance (set_token_type q a.length .NUMBER))) + 1)
        (advance (advance (set_token_type q a.length .NUMBER)))
      rw [he]
      split
      · exact ⟨{ tok with type := .NUMBER }, hset, rfl⟩
      · refine ⟨{ { tok with type := mu_json_token_type_t.NUMBER } with
          str_len := (k - tok.start) % 65536 }, ?_, rfl⟩
        show modifyTok _ a.length _ = _
        rw [show ({ advance (advance (set_token_type q a.length .NUMBER)) with
              str_pos := k } : parser_t).tokens =
            a ++ [{ tok with type := .NUMBER }] from hset]
        rw [modifyTok_append]
        rfl
    · obtain ⟨k, hk, he, hd⟩ := scan_digits_spec
        (remaining (advance (set_token_type q a.length .NUMBER)) + 1)
        (advance (set_token_type q a.length .NUMBER))
      rw [he]
      split
      · exact ⟨{ tok with type := .NUMBER }, hset, rfl⟩
      · refine ⟨{ { tok with type := mu_json_token_type_t.NUMBER } with
          str_len := (k - tok.start) % 65536 }, ?_, rfl⟩
        show modifyTok _ a.length _ = _
        rw [show ({ advance (set_token_type q a.length .NUMBER) with
              str_pos := k } : parser_t).tokens =
            a ++ [{ tok with type := .NUMBER }] from hset]
        rw [modifyTok_append]
        rfl
  · refine ⟨{ tok with str_len := (q.str_pos - tok.start) % 65536 }, ?_, rfl⟩
    show modifyTok q.tokens a.length _ = _
    rw [hq, modifyTok_append]
    rfl

theorem number_tail_frac_toks {q : parser_t} {idx : Nat} {a : List mu_json_token_t}
    {tok : mu_json_token_t} (hq : q.tokens = a ++ [tok]) (hidx : idx = a.length) :
    ∃ tok2, (number_tail_frac q idx).2.tokens = a ++ [tok2] ∧ tok2.level = tok.level := by
  subst hidx
  unfold number_tail_frac
  dsimp only []
  have hset : (advance (set_token_type q a.length .NUMBER)).tokens =
      a ++ [{ tok with type := .NUMBER }] := by
    show modifyTok q.tokens a.length _ = _
    rw [hq, modifyTok_append]
    rfl
  split
  · obtain ⟨k, hk, he, hd⟩ := scan_digits_spec
      (remaining (advance (set_token_type q a.length .NUMBER)) + 1)
      (advance (set_token_type q a.length .NUMBER))
    rw [he]
    split
    · exact ⟨{ tok with type := .NUMBER }, hset, rfl⟩
    · obtain ⟨tok2, h2, hl2⟩ := number_tail_exp_toks
        (show ({ advance (set_token_type q a.length .NUMBER) with
            str_pos := k } : parser_t).tokens = a ++ [{ tok with type := .NUMBER }]
          from hset) rfl
      exact ⟨tok2, h2, hl2⟩
  · exact number_tail_exp_toks hq rfl

theorem parse_number_head (p : parser_t) :
    ∀ t rest, (parse_number p).2.tokens = p.tokens ++ t :: rest →
      t.level = p.level % 2048 := by
  unfold parse_number
  dsimp only []
  split
  · exact head_none rfl
  · cases hinit : init_token p .INTEGER with
    | none => exact head_none rfl
    | some p1 =>
      dsimp only []
      have hp1 : p1.tokens = p.tokens ++ [new_tok p .INTEGER] := by
        rw [init_token_eq hinit]
      have h2 : (if (peek_char p1 == 45) = true then advance p1 else p1).tokens
          = p.tokens ++ [new_tok p .INTEGER] := by
        split <;> exact hp1
      generalize hq2 : (if (peek_char p1 == 45) = true then advance p1 else p1) = q2 at h2 ⊢
      split
      · exact head_single h2 rfl
      · have h3 : (if (!at_eos q2 && peek_char q2 == 48) = true
            then advance q2 else q2).tokens = p.tokens ++ [new_tok p .INTEGER] := by
          split <;> exact h2
        generalize hq3 : (if (!at_eos q2 && peek_char q2 == 48) = true
            then advance q2 else q2) = q3 at h3 ⊢
        split
        · exact head_single h3 rfl
        · obtain ⟨k, hk, he, hd⟩ := scan_digits_spec (remaining q3 + 1) q3
          generalize hr : scan_digits (remaining q3 + 1) q3 = r at he ⊢
          have h4 : r.2.tokens = p.tokens ++ [new_tok p .INTEGER] := by
            rw [he]; exact h3
          split
          · exact head_single h4 rfl
          · split
            · exact head_single h4 rfl
            · obtain ⟨tok2, ht2, hl2⟩ := number_tail_frac_toks h4 rfl
              exact head_single ht2 (by rw [hl2]; rfl)

theorem head_finalize_chain {p q : parser_t} {tok : mu_json_token_t}
    {mid : List mu_json_token_t} {idx : Nat} (hidx : idx = p.tokens.length)
    (h : q.tokens = p.tokens ++ tok :: mid) (hl : tok.level = p.level % 2048) :
    ∀ t rest, (finalize_token q idx).tokens = p.tokens ++ t :: rest →
      t.level = p.level % 2048 := by
  intro t rest he
  subst hidx
  unfold finalize_token at he
  dsimp only [] at he
  rw [h, modifyTok_append_ge _ _ _ _ le_rfl, Nat.sub_self] at he
  have h3 := List.append_cancel_left he
  have h4 := ((List.cons.injEq _ _ _ _).mp h3).1
  rw [← h4]
  exact hl

theorem parse_object_given_head (fns : ParseFns) (hf : FnsInv fns) (p : parser_t) :
    ∀ t rest, (parse_object_given fns p).2.tokens = p.tokens ++ t :: rest →
      t.level = p.level % 2048 := by
  unfold parse_object_given
  dsimp only []
  split
  · exact head_none rfl
  · cases hinit : init_token p .OBJECT with
    | none => exact head_none rfl
    | some p1 =>
      dsimp only []
      have hp1 : p1.tokens = p.tokens ++ [new_tok p .OBJECT] := by
        rw [init_token_eq hinit]
      split
      next p3 heq =>
        have hl := hf.2.1 true (advance { p1 with level := p1.level + 1 })
        rw [heq] at hl
        obtain ⟨cfg, nw, he, hlast⟩ := hl
        have hp3 : p3.tokens = p.tokens ++ (new_tok p .OBJECT :: nw) := by
          calc p3.tokens = p1.tokens ++ nw := he
          _ = (p.tokens ++ [new_tok p .OBJECT]) ++ nw := by rw [hp1]
          _ = p.tokens ++ (new_tok p .OBJECT :: nw) := by simp
        split
        · exact head_chain hp3 rfl
        · split
          · exact head_chain hp3 rfl
          · exact head_finalize_chain rfl hp3 rfl
      next r heq =>
        obtain ⟨cfg, nw, he, hlast⟩ :=
          hf.2.1 true (advance { p1 with level := p1.level + 1 })
        have hp3 : (fns.objloop true (advance { p1 with level := p1.level + 1 })).2.tokens
            = p.tokens ++ (new_tok p .OBJECT :: nw) := by
          calc (fns.objloop true (advance { p1 with level := p1.level + 1 })).2.tokens
              = p1.tokens ++ nw := he
          _ = (p.tokens ++ [new_tok p .OBJECT]) ++ nw := by rw [hp1]
          _ = p.tokens ++ (new_tok p .OBJECT :: nw) := by simp
        exact head_chain hp3 rfl

theorem parse_array_given_head (fns : ParseFns) (hf : FnsInv fns) (p : parser_t) :
    ∀ t rest, (parse_array_given fns p).2.tokens = p.tokens ++ t :: rest →
      t.level = p.level % 2048 := by
  unfold parse_array_given
  dsimp only []
  split
  · exact head_none rfl
  · cases hinit : init_token p .ARRAY with
    | none => exact head_none rfl
    | some p1 =>
      dsimp only []
      have hp1 : p1.tokens = p.tokens ++ [new_tok p .ARRAY] := by
        rw [init_token_eq hinit]
      split
      next p3 heq =>
        have hl := hf.2.2 true (advance { p1 with level := p1.level + 1 })
        rw [heq] at hl
        obtain ⟨cfg, nw, he, hlast⟩ := hl
        have hp3 : p3.tokens = p.tokens ++ (new_tok p .ARRAY :: nw) := by
          calc p3.tokens = p1.tokens ++ nw := he
          _ = (p.tokens ++ [new_tok p .ARRAY]) ++ nw := by rw [hp1]
          _ = p.tokens ++ (new_tok p .ARRAY :: nw) := by simp
        split
        · exact head_chain hp3 rfl
        · split
          · exact head_chain hp3 rfl
          · exact head_finalize_chain rfl hp3 rfl
      next r heq =>
        obtain ⟨cfg, nw, he, hlast⟩ :=
          hf.2.2 true (advance { p1 with level := p1.level + 1 })
        have hp3 : (fns.arrloop true (advance { p1 with level := p1.level + 1 })).2.tokens
            = p.tokens ++ (new_tok p .ARRAY :: nw) := by
          calc (fns.arrloop true (advance { p1 with level := p1.level + 1 })).2.tokens
              = p1.tokens ++ nw := he
          _ = (p.tokens ++ [new_tok p .ARRAY]) ++ nw := by rw [hp1]
          _ = p.tokens ++ (new_tok p .ARRAY :: nw) := by simp
        exact head_chain hp3 rfl

theorem parse_element_body_head (fns : ParseFns) (hf : FnsInv fns) (p : parser_t) :
    ∀ t rest, (parse_element_body fns p).2.tokens = p.tokens ++ t :: rest →
      t.level = p.level % 2048 := by
  unfold parse_element_body
  dsimp only []
  obtain ⟨k, hk, hsw⟩ := skip_whitespace_shape p
  rw [hsw]
  split
  · exact head_none rfl
  · split
    · exact parse_string_head _
    · split
      · exact parse_number_head _
      · split
        · exact parse_literal_head _ _ _
        · split
          · exact parse_literal_head _ _ _
          · split
            · exact parse_literal_head _ _ _
            · split
              · exact parse_object_given_head fns hf _
              · split
                · exact parse_array_given_head fns hf _
                · split
                  · exact head_none rfl
                  · exact head_none rfl

theorem core_element_head (fuel : Nat) (p : parser_t) :
    ∀ t rest, ((parse_core fuel).element p).2.tokens = p.tokens ++ t :: rest →
      t.level = p.level % 2048 := by
  cases fuel with
  | zero => exact head_none rfl
  | succ fuel =>
    show ∀ t rest, (parse_element_body (parse_core fuel) p).2.tokens = _ → _
    exact parse_element_body_head _ (core_inv fuel) p

-- ***************************************************************************
-- What a successful parse guarantees about the token store

theorem getD_all_false {l : List mu_json_token_t}
    (h : ∀ t ∈ l, t.is_last = false) {i : Nat} (hi : i < l.length) :
    (l.getD i default).is_last = false := by
  rw [List.getD_eq_getElem l default hi]
  exact h _ (List.getElem_mem hi)

/-- Core invariant of `parse_json` on success: the store has exactly `n`
tokens, the root token has level 0, and `is_last` is set on the final token
and on no other. -/
theorem parse_json_success {str : Option (List Nat)} {str_len : Int} {sn : Bool}
    {mt : Int} {n : Int} {ts : List mu_json_token_t}
    (h : parse_json str str_len sn mt = (n, ts)) (hn : 0 < n) :
    (ts.length : Int) = n ∧
    (ts.getD 0 default).level = 0 ∧
    (∀ i, i < ts.length → ((ts.getD i default).is_last = true ↔ i = ts.length - 1)) := by
  unfold parse_json at h
  cases str with
  | none =>
    injection h with h1 h2
    rw [← h1] at hn
    exact absurd hn (by decide)
  | some s =>
    dsimp only [] at h
    split at h
    · injection h with h1 h2
      rw [← h1] at hn
      exact absurd hn (by decide)
    · split at h
      · injection h with h1 h2
        rw [← h1] at hn
        exact absurd hn (by decide)
      · split at h
        · injection h with h1 h2
          rw [← h1] at hn
          exact absurd hn (by decide)
        · split at h
          next p2 heq =>
            split at h
            · injection h with h1 h2
              rw [← h1] at hn
              exact absurd hn (by decide)
            · next hlen0 =>
              split at h
              · injection h with h1 h2
                rw [← h1] at hn
                exact absurd hn (by decide)
              · injection h with h1 h2
                have hinv := (core_inv (2 * str_len.toNat + 8)).1
                  { str := s, str_len := str_len, str_pos := 0, tokens := [],
                    max_tokens := mt, level := 0 }
                rw [heq] at hinv
                obtain ⟨cfg, nw, he, hlast⟩ := hinv
                simp only [List.nil_append] at he
                have hhead := core_element_head (2 * str_len.toNat + 8)
                  { str := s, str_len := str_len, str_pos := 0, tokens := [],
                    max_tokens := mt, level := 0 }
                rw [heq] at hhead
                dsimp only [] at hhead
                subst h2
                have hswt : (skip_whitespace p2).tokens = p2.tokens := by
                  obtain ⟨k, hk, hsw⟩ := skip_whitespace_shape p2
                  rw [hsw]
                rw [hswt] at h1
                rw [congrArg set_last_token hswt]
                refine ⟨?_, ?_, ?_⟩
                · rw [← h1]
                  unfold set_last_token
                  rw [modifyTok_length]
                · cases htl : p2.tokens with
                  | nil => rw [htl] at hlen0; simp at hlen0
                  | cons t0 trest =>
                    have hl0 : t0.level = 0 := by
                      have := hhead t0 trest (by rw [htl]; simp)
                      simpa using this
                    unfold set_last_token
                    cases trest with
                    | nil =>
                      simp only [List.length_cons, List.length_nil]
                      rw [show (1 : Nat) - 1 = 0 from rfl]
                      rw [modifyTok_getD_eq _ _ _ _ (by simp [htl])]
                      simpa using hl0
                    | cons t1 trest2 =>
                      rw [modifyTok_getD_ne _ _ _ _ _ (by simp)]
                      simpa using hl0
                · intro i hi
                  unfold set_last_token at hi ⊢
                  rw [modifyTok_length] at hi
                  by_cases hieq : i = p2.tokens.length - 1
                  · subst hieq
                    rw [modifyTok_getD_eq _ _ _ _ (by omega)]
                    simp [modifyTok_length]
                  · rw [modifyTok_getD_ne _ _ _ _ _ (fun hh => hieq hh.symm)]
                    have hf : (p2.tokens.getD i default).is_last = false := by
                      apply getD_all_false _ hi
                      intro t ht
                      exact hlast t (by rw [← he]; exact ht)
                    rw [hf]
                    simp [modifyTok_length]
                    omega
          next x e2 q2 hne heq =>
            -- error return: the code is not positive, contradicting 0 < n
            injection h with h1 h2
            rw [← h1] at hn
            cases e2 <;> simp [mu_json_err_t.code] at hn

-- ***************************************************************************
-- Claim theorems

/-- C1: for every input and capacity for which `mu_json_parse_str` or
`mu_json_parse_buffer` returns a positive token count `n`, the store holds
exactly `n` tokens, the token at index 0 has level 0, the token at index
`n-1` has `is_last` set, and no other written token has `is_last` set. -/
theorem claim_C1 :
    (∀ (input : List Nat) (cap n : Int) (ts : List mu_json_token_t),
      mu_json_parse_str (some input) false cap = (n, ts) → 0 < n →
        (ts.length : Int) = n ∧
        (ts.getD 0 default).level = 0 ∧
        (∀ i, i < ts.length →
          ((ts.getD i default).is_last = true ↔ i = ts.length - 1))) ∧
    (∀ (input : List Nat) (len cap n : Int) (ts : List mu_json_token_t),
      mu_json_parse_buffer (some input) len false cap = (n, ts) → 0 < n →
        (ts.length : Int) = n ∧
        (ts.getD 0 default).level = 0 ∧
        (∀ i, i < ts.length →
          ((ts.getD i default).is_last = true ↔ i = ts.length - 1))) := by
  constructor
  · intro input cap n ts h hn
    exact parse_json_success h hn
  · intro input len cap n ts h hn
    exact parse_json_success h hn

/-- Witness for C1: the parse of `[1]` returns 2 tokens and satisfies the
invariants. -/
theorem claim_C1_witness :
    (((mu_json_parse_str (some [91, 49, 93]) false 5).2.length : Int) =
        (mu_json_parse_str (some [91, 49, 93]) false 5).1) ∧
    ((mu_json_parse_str (some [91, 49, 93]) false 5).2.getD 0 default).level = 0 ∧
    (∀ i, i < (mu_json_parse_str (some [91, 49, 93]) false 5).2.length →
      (((mu_json_parse_str (some [91, 49, 93]) false 5).2.getD i default).is_last
          = true ↔
        i = (mu_json_parse_str (some [91, 49, 93]) false 5).2.length - 1)) :=
  claim_C1.1 [91, 49, 93] 5 (mu_json_parse_str (some [91, 49, 93]) false 5).1
    (mu_json_parse_str (some [91, 49, 93]) false 5).2 rfl (by decide)

/-- C8: over any token store produced by a successful parse, for every token
whose `prev` is non-null and whose `prev`'s `next` is non-null,
`next (prev t) = t`; and for every container token with at least one child,
`parent (child c) = c`. -/
theorem claim_C8 :
    ∀ (input : List Nat) (cap n : Int) (ts : List mu_json_token_t),
      mu_json_parse_str (some input) false cap = (n, ts) → 0 < n →
      (∀ i j k2, i < ts.length →
        mu_json_find_prev_token ts i = some j →
        mu_json_find_next_token ts j = some k2 → k2 = i) ∧
      (∀ i j, i < ts.length →
        ((ts.getD i default).type = .OBJECT ∨ (ts.getD i default).type = .ARRAY) →
        mu_json_find_child_token ts i = some j →
        mu_json_find_parent_token ts j = some i) := by
  intro input cap n ts h hn
  obtain ⟨hlen, hlvl0, hiff⟩ := parse_json_success h hn
  constructor
  · intro i j k2 hi hp hn2
    unfold mu_json_find_prev_token token_is_first at hp
    split at hp
    · exact absurd hp (by simp)
    · next hfirst =>
      have hij : j = i - 1 := by
        injection hp with hp2
        omega
      have hi0 : i ≠ 0 := by
        intro h0
        subst h0
        exact hfirst (by rw [hlvl0]; rfl)
      unfold mu_json_find_next_token at hn2
      split at hn2
      · exact absurd hn2 (by simp)
      · injection hn2 with hn3
        omega
  · intro i j hi hty hc
    unfold mu_json_find_child_token token_is_last at hc
    split at hc
    · exact absurd hc (by simp)
    · next hnl =>
      unfold mu_json_find_next_token token_is_last at hc
      rw [if_neg hnl] at hc
      dsimp only [] at hc
      split at hc
      · exact absurd hc (by simp)
      · next hgt =>
        injection hc with hc2
        subst hc2
        have hlt : (ts.getD i default).level < (ts.getD (i + 1) default).level := by
          omega
        have hne1 : (ts.getD (i + 1) default).level ≠ 0 := by omega
        unfold mu_json_find_parent_token token_is_first
        rw [if_neg (by simpa using hne1)]
        have hstep : ¬ ((ts.getD i default).level >
            (ts.getD (i + 1) default).level - 1) := by omega
        show parent_walk ts ((ts.getD (i + 1) default).level - 1) (i + 1) = some i
        unfold parent_walk
        rw [if_pos (by omega)]
        cases i with
        | zero =>
          unfold parent_walk
          rw [if_neg hstep]
        | succ m =>
          unfold parent_walk
          rw [if_neg hstep]

/-- Witness for C8: in the parse of `[1]`, `next (prev t1) = t1` and
`parent (child t0) = t0`. -/
theorem claim_C8_witness :
    (∀ i j k2, i < (mu_json_parse_str (some [91, 49, 93]) false 5).2.length →
      mu_json_find_prev_token (mu_json_parse_str (some [91, 49, 93]) false 5).2 i
          = some j →
      mu_json_find_next_token (mu_json_parse_str (some [91, 49, 93]) false 5).2 j
          = some k2 → k2 = i) ∧
    (∀ i j, i < (mu_json_parse_str (some [91, 49, 93]) false 5).2.length →
      (((mu_json_parse_str (some [91, 49, 93]) false 5).2.getD i default).type
          = .OBJECT ∨
        ((mu_json_parse_str (some [91, 49, 93]) false 5).2.getD i default).type
          = .ARRAY) →
      mu_json_find_child_token (mu_json_parse_str (some [91, 49, 93]) false 5).2 i
          = some j →
      mu_json_find_parent_token (mu_json_parse_str (some [91, 49, 93]) false 5).2 j
          = some i) :=
  claim_C8 [91, 49, 93] 5 (mu_json_parse_str (some [91, 49, 93]) false 5).1
    (mu_json_parse_str (some [91, 49, 93]) false 5).2 rfl (by decide)

/-- C2: the claim that `MU_JSON_ERR_INTERNAL` is unreachable from the public
entry points fails on the code: `parse_object` calls `parse_string` at the
key position without checking for a quote (mu_json.c line 791), so the
well-formed call `mu_json_parse_str("{2}", tokens, 5)` — which satisfies
every public precondition — returns `MU_JSON_ERR_INTERNAL` (-9) from
`parse_string`'s entry guard (mu_json.c lines 478-482). -/
theorem claim_C2 :
    (mu_json_parse_str (some [123, 50, 125]) false 5).1 =
      mu_json_err_t.INTERNAL.code ∧
    (mu_json_parse_str (some [123, 34, 97, 34, 58, 49, 44, 50, 125]) false 9).1 =
      mu_json_err_t.INTERNAL.code := by
  constructor
  · decide
  · decide

/-- C3 counterexample: the input `1e` ends in the middle of a number
exponent, yet parse returns `MU_JSON_ERR_BAD_FORMAT` (-1), not
`MU_JSON_ERR_INCOMPLETE` (-2) as the claim states. -/
theorem claim_C3_counterexample :
    (mu_json_parse_str (some [49, 101]) false 5).1 =
      mu_json_err_t.BAD_FORMAT.code ∧
    mu_json_err_t.BAD_FORMAT.code ≠ mu_json_err_t.INCOMPLETE.code := by
  constructor
  · decide
  · decide

/-- C3 amended: end of input at a member boundary of an unterminated
container (right after the opening bracket, or after a complete element or
pair) yields `INCOMPLETE` — inputs `{`, `[`, `[1`, `{"a":1`; a number ending
after `e`/`E` with no exponent digits yields `BAD_FORMAT` — inputs `1e`,
`1E+`; end of input at a delimiter position yields `BAD_FORMAT` — inputs
`{"a"`, `{"a":1,`; and an object containing `,` directly before `}` yields
`INTERNAL` — input `{"a":1,}`. -/
theorem claim_C3_amended :
    (mu_json_parse_str (some [123]) false 5).1 = mu_json_err_t.INCOMPLETE.code ∧
    (mu_json_parse_str (some [91]) false 5).1 = mu_json_err_t.INCOMPLETE.code ∧
    (mu_json_parse_str (some [91, 49]) false 5).1 =
      mu_json_err_t.INCOMPLETE.code ∧
    (mu_json_parse_str (some [123, 34, 97, 34, 58, 49]) false 9).1 =
      mu_json_err_t.INCOMPLETE.code ∧
    (mu_json_parse_str (some [49, 101]) false 5).1 =
      mu_json_err_t.BAD_FORMAT.code ∧
    (mu_json_parse_str (some [49, 69, 43]) false 5).1 =
      mu_json_err_t.BAD_FORMAT.code ∧
    (mu_json_parse_str (some [123, 34, 97, 34]) false 9).1 =
      mu_json_err_t.BAD_FORMAT.code ∧
    (mu_json_parse_str (some [123, 34, 97, 34, 58, 49, 44]) false 9).1 =
      mu_json_err_t.BAD_FORMAT.code ∧
    (mu_json_parse_str (some [123, 34, 97, 34, 58, 49, 44, 125]) false 9).1 =
      mu_json_err_t.INTERNAL.code := by
  refine ⟨?_, ?_, ?_, ?_, ?_, ?_, ?_, ?_, ?_⟩ <;> decide

/-- C4 counterexample: `mu_json_parse_buffer` with `input_len = -1` (and
valid input, store, capacity 1) returns `MU_JSON_ERR_NO_ENTITIES` (-3), not
`MU_JSON_ERR_BAD_ARGUMENT` (-6): the validation at mu_json.c line 337 tests
`str_len == 0`, not `str_len <= 0`. -/
theorem claim_C4_counterexample :
    (mu_json_parse_buffer (some [49]) (-1) false 1).1 =
      mu_json_err_t.NO_ENTITIES.code ∧
    mu_json_err_t.NO_ENTITIES.code ≠ mu_json_err_t.BAD_ARGUMENT.code := by
  constructor
  · decide
  · decide

/-- At end of string, `parse_element` succeeds without consuming input or
writing tokens (mu_json.c lines 390, 433, 459). -/
theorem element_at_eos {p : parser_t} (h : at_eos p = true) (fuel : Nat) :
    (parse_core (fuel + 1)).element p = (.NONE, p) := by
  show parse_element_body _ p = _
  unfold parse_element_body
  dsimp only []
  have hsw : skip_whitespace p = p := by
    unfold skip_whitespace skip_ws
    rw [if_pos h]
  rw [hsw, if_pos h]

/-- C4 amended: `parse_json` returns `MU_JSON_ERR_BAD_ARGUMENT` for a null
input, a null token store, `input_length == 0`, or `max_tokens == 0` — the
checks are equality tests — while a negative `input_length` is not rejected:
it makes the parser see an empty input and return
`MU_JSON_ERR_NO_ENTITIES` instead. -/
theorem claim_C4_amended :
    (∀ len sn mt, parse_json none len sn mt =
      (mu_json_err_t.BAD_ARGUMENT.code, [])) ∧
    (∀ s len mt, parse_json (some s) len true mt =
      (mu_json_err_t.BAD_ARGUMENT.code, [])) ∧
    (∀ s mt, parse_json (some s) 0 false mt =
      (mu_json_err_t.BAD_ARGUMENT.code, [])) ∧
    (∀ s len, parse_json (some s) len false 0 =
      (mu_json_err_t.BAD_ARGUMENT.code, [])) ∧
    (∀ s len mt, len < 0 → mt ≠ 0 →
      (parse_json (some s) len false mt).1 = mu_json_err_t.NO_ENTITIES.code) := by
  refine ⟨?_, ?_, ?_, ?_, ?_⟩
  · intro len sn mt
    rfl
  · intro s len mt
    rfl
  · intro s mt
    rfl
  · intro s len
    unfold parse_json
    dsimp only []
    rw [if_neg Bool.false_ne_true]
    split
    · rfl
    · rfl
  · intro s len mt hlen hmt
    unfold parse_json
    dsimp only []
    rw [if_neg Bool.false_ne_true, if_neg (by omega : ¬ len = 0), if_neg hmt]
    have h8 : 2 * len.toNat + 8 = 7 + 1 := by
      have h0 : len.toNat = 0 := Int.toNat_of_nonpos (le_of_lt hlen)
      omega
    rw [h8]
    rw [element_at_eos (by simp [at_eos]; omega) 7]
    simp

/-- Witness for the amended C4: the negative-length case at a concrete
input. -/
theorem claim_C4_amended_witness :
    (parse_json (some [49]) (-1) false 1).1 = mu_json_err_t.NO_ENTITIES.code :=
  claim_C4_amended.2.2.2.2 [49] (-1) 1 (by decide) (by decide)

-- ***************************************************************************
-- Emitter lemmas and claims

theorem modifyLvl_length (ls : List mu_jems_level_t) (i : Nat)
    (f : mu_jems_level_t → mu_jems_level_t) : (modifyLvl ls i f).length = ls.length := by
  induction ls generalizing i with
  | nil => rfl
  | cons l ls ih => cases i <;> simp [modifyLvl, ih]

theorem modifyLvl_getD_eq (ls : List mu_jems_level_t) (i : Nat)
    (f : mu_jems_level_t → mu_jems_level_t) (d : mu_jems_level_t)
    (h : i < ls.length) : (modifyLvl ls i f).getD i d = f (ls.getD i d) := by
  induction ls generalizing i with
  | nil => simp at h
  | cons l ls ih =>
    cases i with
    | zero => simp [modifyLvl]
    | succ n => simpa [modifyLvl] using ih n (by simpa using h)

theorem modifyLvl_getD_ne (ls : List mu_jems_level_t) (i j : Nat)
    (f : mu_jems_level_t → mu_jems_level_t) (d : mu_jems_level_t) (h : i ≠ j) :
    (modifyLvl ls i f).getD j d = ls.getD j d := by
  induction ls generalizing i j with
  | nil => rfl
  | cons l ls ih =>
    cases i with
    | zero =>
      cases j with
      | zero => exact absurd rfl h
      | succ m => simp [modifyLvl]
    | succ n =>
      cases j with
      | zero => simp [modifyLvl]
      | succ m => simpa [modifyLvl] using ih n m (fun hh => h (by omega))

/-- The net effect of `commify` on the emitter state: emit the separator
demanded by the current frame and bump its `item_count`. -/
theorem commify_shape (j : mu_jems_t) :
    commify j = { j with
      out := j.out ++
        (if (level_ref j).is_object then
          (if (level_ref j).item_count > 0 then
            [if (level_ref j).item_count % 2 = 1 then 58 else 44]
           else [])
         else (if (level_ref j).item_count > 0 then [44] else [])),
      levels := modifyLvl j.levels j.curr_level
        (fun l => { l with item_count := l.item_count + 1 }) } := by
  unfold commify
  dsimp only []
  split
  next ho =>
    split
    next hc => simp [emit_char, ho, hc]
    next hc => simp [emit_char, ho, hc]
  next ho =>
    split
    next hc => simp [emit_char, eq_false_intro ho, hc]
    next hc => simp [emit_char, eq_false_intro ho, hc]

/-- C7: each emission's punctuation step, `commify`, first emits the
separator required by the current frame — in an object frame with
`item_count > 0`, `:` (58) when the count is odd and `,` (44) when even; in
a root or array frame with `item_count > 0`, `,`; nothing when the count is
0 — and in all cases increments exactly the current frame's `item_count` by
one, leaving its `is_object`, every other frame, and the current depth
unchanged. -/
theorem claim_C7 :
    ∀ j : mu_jems_t, j.curr_level < j.levels.length →
      ((commify j).out = j.out ++
        (if (level_ref j).is_object then
          (if (level_ref j).item_count > 0 then
            [if (level_ref j).item_count % 2 = 1 then 58 else 44]
           else [])
         else (if (level_ref j).item_count > 0 then [44] else []))) ∧
      (commify j).curr_level = j.curr_level ∧
      (commify j).levels.length = j.levels.length ∧
      ((commify j).levels.getD j.curr_level default).item_count =
        (level_ref j).item_count + 1 ∧
      ((commify j).levels.getD j.curr_level default).is_object =
        (level_ref j).is_object ∧
      (∀ i, i ≠ j.curr_level →
        (commify j).levels.getD i default = j.levels.getD i default) := by
  intro j hcl
  rw [commify_shape]
  dsimp only []
  refine ⟨rfl, rfl, modifyLvl_length _ _ _, ?_, ?_, ?_⟩
  · rw [modifyLvl_getD_eq _ _ _ _ hcl]
    rfl
  · rw [modifyLvl_getD_eq _ _ _ _ hcl]
    rfl
  · intro i hne
    exact modifyLvl_getD_ne _ _ _ _ _ (fun hh => hne hh.symm)

/-- Witness for C7: a concrete emitter state (object frame, item count 3)
where `commify` emits `:` and bumps the count to 4. -/
theorem claim_C7_witness :
    ((commify (mu_jems_t.mk [⟨1, false⟩, ⟨3, true⟩] 2 1 [])).out =
      ([] : List Nat) ++
        (if (level_ref (mu_jems_t.mk [⟨1, false⟩, ⟨3, true⟩] 2 1 [])).is_object then
          (if (level_ref (mu_jems_t.mk [⟨1, false⟩, ⟨3, true⟩] 2 1 [])).item_count
              > 0 then
            [if (level_ref (mu_jems_t.mk [⟨1, false⟩, ⟨3, true⟩] 2 1
                [])).item_count % 2 = 1 then 58 else 44]
           else [])
         else
          (if (level_ref (mu_jems_t.mk [⟨1, false⟩, ⟨3, true⟩] 2 1
              [])).item_count > 0 then [44] else []))) ∧
    (commify (mu_jems_t.mk [⟨1, false⟩, ⟨3, true⟩] 2 1 [])).curr_level = 1 ∧
    (commify (mu_jems_t.mk [⟨1, false⟩, ⟨3, true⟩] 2 1 [])).levels.length =
      ([⟨1, false⟩, ⟨3, true⟩] : List mu_jems_level_t).length ∧
    ((commify (mu_jems_t.mk [⟨1, false⟩, ⟨3, true⟩] 2 1 [])).levels.getD 1
        default).item_count =
      (level_ref (mu_jems_t.mk [⟨1, false⟩, ⟨3, true⟩] 2 1 [])).item_count + 1 ∧
    ((commify (mu_jems_t.mk [⟨1, false⟩, ⟨3, true⟩] 2 1 [])).levels.getD 1
        default).is_object =
      (level_ref (mu_jems_t.mk [⟨1, false⟩, ⟨3, true⟩] 2 1 [])).is_object ∧
    (∀ i, i ≠ 1 →
      (commify (mu_jems_t.mk [⟨1, false⟩, ⟨3, true⟩] 2 1 [])).levels.getD i
          default =
        ([⟨1, false⟩, ⟨3, true⟩] : List mu_jems_level_t).getD i default) :=
  claim_C7 (mu_jems_t.mk [⟨1, false⟩, ⟨3, true⟩] 2 1 []) (by decide)

/-- C10: `mu_jems_object_close` and `mu_jems_array_close` call the writer
exactly once, with `}` (125) and `]` (93) respectively, emit no punctuation
prefix, leave every frame (hence every `item_count`) unchanged, and
decrement `curr_level` by one unless it is already 0, in which case the
level stays 0 while the closing byte is still emitted. -/
theorem claim_C10 :
    ∀ j : mu_jems_t,
      (mu_jems_object_close j).out = j.out ++ [125] ∧
      (mu_jems_object_close j).levels = j.levels ∧
      (mu_jems_object_close j).curr_level =
        (if j.curr_level > 0 then j.curr_level - 1 else j.curr_level) ∧
      (mu_jems_array_close j).out = j.out ++ [93] ∧
      (mu_jems_array_close j).levels = j.levels ∧
      (mu_jems_array_close j).curr_level =
        (if j.curr_level > 0 then j.curr_level - 1 else j.curr_level) := by
  intro j
  unfold mu_jems_object_close mu_jems_array_close pop_level emit_char
  dsimp only []
  refine ⟨?_, ?_, ?_, ?_, ?_, ?_⟩ <;> (split <;> rfl)

/-- C9 counterexample: the emitter sequence `object_open;
key_integer("x",1); key_array_open("y"); integer(2); number(3.5);
array_close; object_close` does not deliver the byte stream
`{"x":1,"y":[2,3.5]}`: `mu_jems_number(3.5)` fails the int64 round-trip
test and formats with `%lf`, which prints six decimal places. -/
theorem claim_C9_counterexample :
    (mu_jems_object_close (mu_jems_array_close (mu_jems_number
      (mu_jems_integer (mu_jems_key_array_open (mu_jems_key_integer
        (mu_jems_object_open (mu_jems_init (List.replicate 4 default) 4))
        [120] 1) [121]) 2) (Rat.mk' 7 2)))).out ≠
    [123, 34, 120, 34, 58, 49, 44, 34, 121, 34, 58, 91,
     50, 44, 51, 46, 53, 93, 125] := by
  decide

/-- C9 amended: the same emitter sequence, from a freshly initialized
emitter with frame capacity 4, delivers to the writer exactly the byte
stream `{"x":1,"y":[2,3.500000]}` — the value 3.5 is emitted by the `%lf`
branch of `mu_jems_number` as `3.500000` — and nothing else. -/
theorem claim_C9_amended :
    (mu_jems_object_close (mu_jems_array_close (mu_jems_number
      (mu_jems_integer (mu_jems_key_array_open (mu_jems_key_integer
        (mu_jems_object_open (mu_jems_init (List.replicate 4 default) 4))
        [120] 1) [121]) 2) (Rat.mk' 7 2)))).out =
    [123, 34, 120, 34, 58, 49, 44, 34, 121, 34, 58, 91,
     50, 44, 51, 46, 53, 48, 48, 48, 48, 48, 93, 125] := by
  decide

-- ***************************************************************************
-- Number classification (claim C5): INTEGER iff the literal has no . e E

theorem number_tail_exp_spec {p3 : parser_t} {a : List mu_json_token_t}
    {tok : mu_json_token_t} (hq : p3.tokens = a ++ [tok]) :
    ∀ e q, number_tail_exp p3 a.length = (e, q) → e = .NONE →
      q.str = p3.str ∧ ∃ tok2, q.tokens = a ++ [tok2] ∧
        ((tok2.type = tok.type ∧ q.str_pos = p3.str_pos) ∨
         (tok2.type = .NUMBER ∧ ∃ m, p3.str_pos ≤ m ∧ m < q.str_pos ∧
           (p3.str.getD m 0 = 46 ∨ p3.str.getD m 0 = 101 ∨ p3.str.getD m 0 = 69))) := by
  unfold number_tail_exp
  dsimp only []
  have hset : (advance (set_token_type p3 a.length .NUMBER)).tokens =
      a ++ [{ tok with type := .NUMBER }] := by
    show modifyTok p3.tokens a.length _ = _
    rw [hq, modifyTok_append]
    rfl
  split
  next hcond =>
    have hpk : p3.str.getD p3.str_pos 0 = 101 ∨ p3.str.getD p3.str_pos 0 = 69 := by
      rw [Bool.and_eq_true, Bool.or_eq_true] at hcond
      unfold peek_char at hcond
      rcases hcond.2 with h2 | h2
      · exact Or.inl (by simpa using h2)
      · exact Or.inr (by simpa using h2)
    split
    next hsig =>
      obtain ⟨k, hk, he, hd⟩ := scan_digits_spec
        (remaining (advance (advance (set_token_type p3 a.length .NUMBER))) + 1)
        (advance (advance (set_token_type p3 a.length .NUMBER)))
      rw [he]
      split
      · intro e q heq hnone
        rw [hnone] at heq
        exact absurd (congrArg Prod.fst heq) (by simp)
      · intro e q heq hnone
        have hqq : q = finalize_token
            { advance (advance (set_token_type p3 a.length .NUMBER)) with
              str_pos := k } a.length := (congrArg Prod.snd heq).symm
        subst hqq
        refine ⟨rfl, ?_⟩
        refine ⟨{ { tok with type := mu_json_token_type_t.NUMBER } with
          str_len := (k - tok.start) % 65536 }, ?_, ?_⟩
        · show modifyTok _ a.length _ = _
          rw [show ({ advance (advance (set_token_type p3 a.length .NUMBER)) with
                str_pos := k } : parser_t).tokens =
              a ++ [{ tok with type := .NUMBER }] from hset]
          rw [modifyTok_append]
          rfl
        · refine Or.inr ⟨rfl, p3.str_pos, le_rfl, ?_, Or.inr hpk⟩
          show p3.str_pos < k
          simp [advance, set_token_type] at hk
          omega
    next hsig =>
      obtain ⟨k, hk, he, hd⟩ := scan_digits_spec
        (remaining (advance (set_token_type p3 a.length .NUMBER)) + 1)
        (advance (set_token_type p3 a.length .NUMBER))
      rw [he]
      split
      · intro e q heq hnone
        rw [hnone] at heq
        exact absurd (congrArg Prod.fst heq) (by simp)
      · intro e q heq hnone
        have hqq : q = finalize_token
            { advance (set_token_type p3 a.length .NUMBER) with
              str_pos := k } a.length := (congrArg Prod.snd heq).symm
        subst hqq
        refine ⟨rfl, ?_⟩
        refine ⟨{ { tok with type := mu_json_token_type_t.NUMBER } with
          str_len := (k - tok.start) % 65536 }, ?_, ?_⟩
        · show modifyTok _ a.length _ = _
          rw [show ({ advance (set_token_type p3 a.length .NUMBER) with
                str_pos := k } : parser_t).tokens =
              a ++ [{ tok with type := .NUMBER }] from hset]
          rw [modifyTok_append]
          rfl
        · refine Or.inr ⟨rfl, p3.str_pos, le_rfl, ?_, Or.inr hpk⟩
          show p3.str_pos < k
          simp [advance, set_token_type] at hk
          omega
  next hcond =>
    intro e q heq hnone
    have hqq : q = finalize_token p3 a.length := (congrArg Prod.snd heq).symm
    subst hqq
    refine ⟨rfl, ?_⟩
    refine ⟨{ tok with str_len := (p3.str_pos - tok.start) % 65536 }, ?_, ?_⟩
    · show modifyTok p3.tokens a.length _ = _
      rw [hq, modifyTok_append]
      rfl
    · exact Or.inl ⟨rfl, rfl⟩

theorem number_tail_frac_spec {p3 : parser_t} {a : List mu_json_token_t}
    {tok : mu_json_token_t} (hq : p3.tokens = a ++ [tok]) :
    ∀ e q, number_tail_frac p3 a.length = (e, q) → e = .NONE →
      q.str = p3.str ∧ ∃ tok2, q.tokens = a ++ [tok2] ∧
        ((tok2.type = tok.type ∧ q.str_pos = p3.str_pos) ∨
         (tok2.type = .NUMBER ∧ ∃ m, p3.str_pos ≤ m ∧ m < q.str_pos ∧
           (p3.str.getD m 0 = 46 ∨ p3.str.getD m 0 = 101 ∨ p3.str.getD m 0 = 69))) := by
  unfold number_tail_frac
  dsimp only []
  split
  next hcond =>
    have hpk : p3.str.getD p3.str_pos 0 = 46 := by
      rw [Bool.and_eq_true] at hcond
      unfold peek_char at hcond
      simpa using hcond.2
    have hset : (advance (set_token_type p3 a.length .NUMBER)).tokens =
        a ++ [{ tok with type := .NUMBER }] := by
      show modifyTok p3.tokens a.length _ = _
      rw [hq, modifyTok_append]
      rfl
    obtain ⟨k, hk, he, hd⟩ := scan_digits_spec
      (remaining (advance (set_token_type p3 a.length .NUMBER)) + 1)
      (advance (set_token_type p3 a.length .NUMBER))
    rw [he]
    simp only [advance, set_token_type] at hk
    split
    · intro e q heq hnone
      rw [hnone] at heq
      exact absurd (congrArg Prod.fst heq) (by simp)
    · intro e q heq hnone
      have hS : ({ advance (set_token_type p3 a.length .NUMBER) with
          str_pos := k } : parser_t).tokens = a ++ [{ tok with type := .NUMBER }] :=
        hset
      obtain ⟨hstr, tok2, htoks, hdisj⟩ :=
        number_tail_exp_spec hS e q heq hnone
      refine ⟨hstr, tok2, htoks, Or.inr ?_⟩
      rcases hdisj with ⟨hty, hpos⟩ | ⟨hty, m, hm1, hm2, hm3⟩
      · refine ⟨by rw [hty], p3.str_pos, le_rfl, ?_, Or.inl hpk⟩
        have hq2 : q.str_pos = k := hpos
        omega
      · refine ⟨hty, p3.str_pos, le_rfl, ?_, Or.inl hpk⟩
        have hm1k : k ≤ m := hm1
        omega
  next hcond =>
    intro e q heq hnone
    exact number_tail_exp_spec hq e q heq hnone

theorem parse_number_spec :
    ∀ p e q, parse_number p = (e, q) → e = .NONE →
      ∃ tok2, q.tokens = p.tokens ++ [tok2] ∧
        (tok2.type = .INTEGER ∨ tok2.type = .NUMBER) ∧
        (tok2.type = .INTEGER ↔
          ∀ m, p.str_pos ≤ m → m < q.str_pos →
            (p.str.getD m 0 ≠ 46 ∧ p.str.getD m 0 ≠ 101 ∧ p.str.getD m 0 ≠ 69)) := by
  intro p e q heq hnone
  unfold parse_number at heq
  dsimp only [] at heq
  split at heq
  · rw [hnone] at heq
    exact absurd (congrArg Prod.fst heq) (by simp)
  · cases hinit : init_token p .INTEGER with
    | none =>
      rw [hinit] at heq
      dsimp only [] at heq
      rw [hnone] at heq
      exact absurd (congrArg Prod.fst heq) (by simp)
    | some p1 =>
      rw [hinit] at heq
      dsimp only [] at heq
      have hp1 := init_token_eq hinit
      subst hp1
      generalize hq2 : (if (peek_char { p with
          tokens := p.tokens ++ [new_tok p .INTEGER] } == 45) = true
        then advance { p with tokens := p.tokens ++ [new_tok p .INTEGER] }
        else { p with tokens := p.tokens ++ [new_tok p .INTEGER] }) = q2 at heq
      have h2str : q2.str = p.str := by rw [← hq2]; split <;> rfl
      have h2tok : q2.tokens = p.tokens ++ [new_tok p .INTEGER] := by
        rw [← hq2]; split <;> rfl
      have h2pos : p.str_pos ≤ q2.str_pos := by
        rw [← hq2]; split
        · simp [advance]
        · exact le_rfl
      have h2seg : ∀ m, p.str_pos ≤ m → m < q2.str_pos →
          (p.str.getD m 0 ≠ 46 ∧ p.str.getD m 0 ≠ 101 ∧ p.str.getD m 0 ≠ 69) := by
        rw [← hq2]
        split
        next hc =>
          intro m h1 h2
          rw [show (advance { p with
              tokens := p.tokens ++ [new_tok p .INTEGER] }).str_pos
            = p.str_pos + 1 from rfl] at h2
          have hm : m = p.str_pos := by omega
          subst hm
          have hb : p.str.getD p.str_pos 0 = 45 := by
            unfold peek_char at hc
            simpa using hc
          omega
        next hc =>
          intro m h1 h2
          rw [show ({ p with
              tokens := p.tokens ++ [new_tok p .INTEGER] } : parser_t).str_pos
            = p.str_pos from rfl] at h2
          omega
      split at heq
      · rw [hnone] at heq
        exact absurd (congrArg Prod.fst heq) (by simp)
      · generalize hq3 : (if (!at_eos q2 && peek_char q2 == 48) = true
          then advance q2 else q2) = q3 at heq
        have h3str : q3.str = q2.str := by rw [← hq3]; split <;> rfl
        have h3tok : q3.tokens = q2.tokens := by rw [← hq3]; split <;> rfl
        have h3pos : q2.str_pos ≤ q3.str_pos := by
          rw [← hq3]; split
          · simp [advance]
          · exact le_rfl
        have h3seg : ∀ m, q2.str_pos ≤ m → m < q3.str_pos →
            (q2.str.getD m 0 ≠ 46 ∧ q2.str.getD m 0 ≠ 101 ∧ q2.str.getD m 0 ≠ 69) := by
          rw [← hq3]
          split
          next hc =>
            intro m h1 h2
            rw [show (advance q2).str_pos = q2.str_pos + 1 from rfl] at h2
            have hm : m = q2.str_pos := by omega
            subst hm
            rw [Bool.and_eq_true] at hc
            have hb : q2.str.getD q2.str_pos 0 = 48 := by
              have := hc.2
              unfold peek_char at this
              simpa using this
            omega
          next hc =>
            intro m h1 h2
            omega
        split at heq
        · rw [hnone] at heq
          exact absurd (congrArg Prod.fst heq) (by simp)
        · obtain ⟨k, hk, he, hd⟩ := scan_digits_spec (remaining q3 + 1) q3
          generalize hr : scan_digits (remaining q3 + 1) q3 = r at heq he
          split at heq
          · rw [hnone] at heq
            exact absurd (congrArg Prod.fst heq) (by simp)
          · split at heq
            · rw [hnone] at heq
              exact absurd (congrArg Prod.fst heq) (by simp)
            · have hrt : r.2.tokens = p.tokens ++ [new_tok p .INTEGER] := by
                rw [he]
                show q3.tokens = _
                rw [h3tok, h2tok]
              obtain ⟨hstr, tok2, htoks, hdisj⟩ :=
                number_tail_frac_spec hrt e q heq hnone
              have hr2pos : r.2.str_pos = k := by rw [he]
              have hr2str : r.2.str = p.str := by
                rw [he]
                show q3.str = p.str
                rw [h3str, h2str]
              refine ⟨tok2, htoks, ?_, ?_⟩
              · rcases hdisj with ⟨hty, _⟩ | ⟨hty, _⟩
                · exact Or.inl (hty.trans rfl)
                · exact Or.inr hty
              · rcases hdisj with ⟨hty, hpos⟩ | ⟨hty, m, hm1, hm2, hm3⟩
                · constructor
                  · intro _ m hm1 hm2
                    rw [hpos, hr2pos] at hm2
                    by_cases hc1 : m < q2.str_pos
                    · exact h2seg m hm1 hc1
                    · by_cases hc2 : m < q3.str_pos
                      · have := h3seg m (by omega) hc2
                        rw [h2str] at this
                        exact this
                      · have hdig := hd m (by omega) hm2
                        rw [h3str, h2str] at hdig
                        simp only [is_digit, Bool.and_eq_true,
                          decide_eq_true_eq] at hdig
                        omega
                  · intro _
                    exact hty.trans rfl
                · constructor
                  · intro hI
                    exact absurd (hty.symm.trans hI) (by simp)
                  · intro hclean
                    exfalso
                    have hm1k : k ≤ m := by rw [hr2pos] at hm1; exact hm1
                    have hmp : p.str_pos ≤ m := by omega
                    have := hclean m hmp hm2
                    rw [hr2str] at hm3
                    rcases hm3 with h46 | h101 | h69
                    · exact this.1 h46
                    · exact this.2.1 h101
                    · exact this.2.2 h69

/-- C5: every successfully parsed numeric literal is classified `INTEGER`
exactly when the consumed span contains no `.` (46), `e` (101) or `E` (69)
byte, and `NUMBER` otherwise; concretely, `"0"` parses to one `INTEGER`
token, `"0.0"` and `"0e0"` parse to one `NUMBER` token, `"-0"` parses to
one `INTEGER` token, and `"01"` is rejected with a negative error code. -/
theorem claim_C5 :
    (∀ p e q, parse_number p = (e, q) → e = .NONE →
      ∃ tok2, q.tokens = p.tokens ++ [tok2] ∧
        (tok2.type = .INTEGER ∨ tok2.type = .NUMBER) ∧
        (tok2.type = .INTEGER ↔
          ∀ m, p.str_pos ≤ m → m < q.str_pos →
            (p.str.getD m 0 ≠ 46 ∧ p.str.getD m 0 ≠ 101 ∧
              p.str.getD m 0 ≠ 69))) ∧
    ((mu_json_parse_str (some [48]) false 4).1 = 1 ∧
      ((mu_json_parse_str (some [48]) false 4).2.getD 0 default).type =
        .INTEGER) ∧
    ((mu_json_parse_str (some [48, 46, 48]) false 4).1 = 1 ∧
      ((mu_json_parse_str (some [48, 46, 48]) false 4).2.getD 0 default).type =
        .NUMBER) ∧
    ((mu_json_parse_str (some [48, 101, 48]) false 4).1 = 1 ∧
      ((mu_json_parse_str (some [48, 101, 48]) false 4).2.getD 0
          default).type = .NUMBER) ∧
    ((mu_json_parse_str (some [45, 48]) false 4).1 = 1 ∧
      ((mu_json_parse_str (some [45, 48]) false 4).2.getD 0 default).type =
        .INTEGER) ∧
    (mu_json_parse_str (some [48, 49]) false 4).1 < 0 := by
  refine ⟨parse_number_spec, ?_, ?_, ?_, ?_, ?_⟩ <;> decide

/-- Witness for C5: instantiating the universal part at the concrete state
`c5p` (input `"42"`), whose `parse_number` run succeeds. -/
theorem claim_C5_witness :
    ∃ tok2, (parse_number c5p).2.tokens = c5p.tokens ++ [tok2] ∧
      (tok2.type = .INTEGER ∨ tok2.type = .NUMBER) ∧
      (tok2.type = .INTEGER ↔
        ∀ m, c5p.str_pos ≤ m → m < (parse_number c5p).2.str_pos →
          (c5p.str.getD m 0 ≠ 46 ∧ c5p.str.getD m 0 ≠ 101 ∧
            c5p.str.getD m 0 ≠ 69)) :=
  claim_C5.1 c5p (parse_number c5p).1 (parse_number c5p).2 rfl (by decide)

theorem land128_of_ge (b : Nat) (h1 : 128 ≤ b) (h2 : b < 256) : b &&& 128 = 128 := by
  interval_cases b <;> rfl

theorem land128_zero (c : Nat) (h : c < 128) : c &&& 128 = 0 := by
  interval_cases c <;> rfl

theorem skip_ws_run : ∀ (n fuel : Nat) (p : parser_t),
    (∀ m, p.str_pos ≤ m → m < p.str_pos + n → is_ws (p.str.getD m 0) = true) →
    ((p.str_pos + n : Int) < p.str_len) →
    is_ws (p.str.getD (p.str_pos + n) 0) = false →
    n + 1 ≤ fuel →
    skip_ws fuel p = { p with str_pos := p.str_pos + n } := by
  intro n
  induction n with
  | zero =>
    intro fuel p hws hlt hnw hf
    obtain ⟨f, rfl⟩ : ∃ f, fuel = f + 1 := ⟨fuel - 1, by omega⟩
    show skip_ws (f + 1) p = _
    unfold skip_ws
    have heos : at_eos p = false := by
      unfold at_eos
      simp only [ge_iff_le, decide_eq_false_iff_not, not_le]
      exact_mod_cast hlt
    rw [heos]
    have hnw0 : is_ws (peek_char p) = false := hnw
    rw [if_neg Bool.false_ne_true, hnw0, if_neg Bool.false_ne_true]
    rfl
  | succ n ih =>
    intro fuel p hws hlt hnw hf
    obtain ⟨f, rfl⟩ : ∃ f, fuel = f + 1 := ⟨fuel - 1, by omega⟩
    show skip_ws (f + 1) p = _
    unfold skip_ws
    have heos : at_eos p = false := by
      unfold at_eos
      simp only [ge_iff_le, decide_eq_false_iff_not, not_le]
      omega
    rw [heos, if_neg Bool.false_ne_true]
    have hw0 : is_ws (peek_char p) = true := hws p.str_pos le_rfl (by omega)
    rw [hw0, if_pos rfl]
    have hidx : p.str_pos + (n + 1) = p.str_pos + 1 + n := by omega
    rw [hidx]
    exact ih f (advance p)
      (fun m h1 h2 => hws m (by simp [advance] at h1; omega)
        (by simp [advance] at h2 ⊢; omega))
      (by show ((p.str_pos + 1 + n : Nat) : Int) < p.str_len; push_cast at hlt ⊢; omega)
      (by show is_ws (p.str.getD (p.str_pos + 1 + n) 0) = false; rw [← hidx]; exact hnw)
      (by omega)

theorem string_scan_run : ∀ (n fuel : Nat) (p : parser_t),
    (∀ m, p.str_pos ≤ m → m < p.str_pos + n →
      (32 ≤ p.str.getD m 0 ∧ p.str.getD m 0 < 128 ∧
        p.str.getD m 0 ≠ 34 ∧ p.str.getD m 0 ≠ 92)) →
    ((p.str_pos + n : Int) < p.str_len) →
    128 ≤ p.str.getD (p.str_pos + n) 0 →
    p.str.getD (p.str_pos + n) 0 < 256 →
    n + 1 ≤ fuel →
    string_scan fuel p = (.NO_MULTIBYTE, { p with str_pos := p.str_pos + n }) := by
  intro n
  induction n with
  | zero =>
    intro fuel p hcl hlt hb1 hb2 hf
    obtain ⟨f, rfl⟩ : ∃ f, fuel = f + 1 := ⟨fuel - 1, by omega⟩
    show string_scan (f + 1) p = _
    unfold string_scan
    dsimp only []
    have heos : at_eos p = false := by
      unfold at_eos
      simp only [ge_iff_le, decide_eq_false_iff_not, not_le]
      exact_mod_cast hlt
    rw [heos, if_neg Bool.false_ne_true]
    have hb : peek_char p = p.str.getD (p.str_pos + 0) 0 := rfl
    have h92 : (peek_char p == 92) = false := by
      rw [hb]; simp only [beq_eq_false_iff_ne, ne_eq]; omega
    rw [h92, if_neg Bool.false_ne_true]
    rw [if_pos (by rw [hb, land128_of_ge _ hb1 hb2]; omega)]
    rfl
  | succ n ih =>
    intro fuel p hcl hlt hb1 hb2 hf
    obtain ⟨f, rfl⟩ : ∃ f, fuel = f + 1 := ⟨fuel - 1, by omega⟩
    show string_scan (f + 1) p = _
    unfold string_scan
    dsimp only []
    have heos : at_eos p = false := by
      unfold at_eos
      simp only [ge_iff_le, decide_eq_false_iff_not, not_le]
      have : (p.str_pos : Int) ≤ p.str_pos + (n + 1 : Nat) := by push_cast; omega
      omega
    rw [heos, if_neg Bool.false_ne_true]
    obtain ⟨hc1, hc2, hc3, hc4⟩ := hcl p.str_pos le_rfl (by omega)
    have hb : peek_char p = p.str.getD p.str_pos 0 := rfl
    have h92 : (peek_char p == 92) = false := by
      rw [hb]; simp only [beq_eq_false_iff_ne, ne_eq]; omega
    rw [h92, if_neg Bool.false_ne_true]
    rw [if_neg (by rw [hb, land128_zero _ hc2]; omega)]
    rw [if_neg (by rw [hb]; omega)]
    have h34 : (peek_char p == 34) = false := by
      rw [hb]; simp only [beq_eq_false_iff_ne, ne_eq]; omega
    rw [h34, if_neg Bool.false_ne_true]
    have hidx : p.str_pos + (n + 1) = p.str_pos + 1 + n := by omega
    rw [hidx]
    exact ih f (advance p)
      (fun m h1 h2 => hcl m (by simp [advance] at h1; omega)
        (by simp [advance] at h2 ⊢; omega))
      (by show ((p.str_pos + 1 + n : Nat) : Int) < p.str_len; push_cast at hlt ⊢; omega)
      (by show 128 ≤ p.str.getD (p.str_pos + 1 + n) 0; rw [← hidx]; exact hb1)
      (by show p.str.getD (p.str_pos + 1 + n) 0 < 256; rw [← hidx]; exact hb2)
      (by omega)



theorem getD_append_self (l1 l2 : List Nat) (b : Nat) :
    (l1 ++ b :: l2).getD l1.length 0 = b := by
  rw [List.getD_eq_getElem?_getD, List.getElem?_append_right (le_refl _)]
  simp

theorem strlen_lower (l : List Nat) (b : Nat) (rest : List Nat)
    (hl : ∀ c ∈ l, c ≠ 0) (hb : b ≠ 0) :
    l.length + 1 ≤ strlen (l ++ b :: rest) := by
  induction l with
  | nil =>
    unfold strlen
    rw [List.nil_append, List.takeWhile_cons, if_pos (decide_eq_true hb)]
    simp
  | cons a t ih =>
    have ha : a ≠ 0 := hl a (List.mem_cons_self a t)
    have ht : ∀ c ∈ t, c ≠ 0 := fun c hc => hl c (List.mem_cons_of_mem a hc)
    have h2 := ih ht
    unfold strlen at h2 ⊢
    rw [List.cons_append, List.takeWhile_cons, if_pos (decide_eq_true ha)]
    simp only [List.length_cons]
    omega

theorem top_level_multibyte (ws : List Nat) (b : Nat) (rest : List Nat) (cap : Int)
    (hws : ∀ c ∈ ws, is_ws c = true) (hb1 : 128 ≤ b) (hb2 : b < 256)
    (hcap : 0 < cap) :
    (mu_json_parse_str (some (ws ++ b :: rest)) false cap).1 =
      mu_json_err_t.NO_MULTIBYTE.code := by
  have hws0 : ∀ c ∈ ws, c ≠ 0 := by
    intro c hc
    have h := hws c hc
    simp only [is_ws, Bool.or_eq_true, beq_iff_eq] at h
    rcases h with ((h|h)|h)|h <;> omega
  have hL : ws.length + 1 ≤ strlen (ws ++ b :: rest) :=
    strlen_lower ws b rest hws0 (by omega)
  unfold mu_json_parse_str parse_json
  dsimp only []
  rw [if_neg Bool.false_ne_true]
  rw [if_neg (show ¬ ((strlen (ws ++ b :: rest) : Int)) = 0 by
    simp only [Int.natCast_eq_zero]; omega)]
  rw [if_neg (by omega : ¬ cap = 0)]
  simp only [Int.toNat_natCast]
  obtain ⟨f, hf⟩ : ∃ f, 2 * strlen (ws ++ b :: rest) + 8 = f + 1 :=
    ⟨2 * strlen (ws ++ b :: rest) + 7, by omega⟩
  rw [hf]
  simp only [parse_core]
  unfold parse_element_body
  dsimp only []
  have hskip := skip_ws_run ws.length (remaining { str := ws ++ b :: rest, str_len := (strlen (ws ++ b :: rest) : Int), str_pos := 0, tokens := [], max_tokens := cap, level := 0 } + 1) { str := ws ++ b :: rest, str_len := (strlen (ws ++ b :: rest) : Int), str_pos := 0, tokens := [], max_tokens := cap, level := 0 }
    (by
      intro m h1 h2
      simp only [] at h1 h2
      have hm : m < ws.length := by omega
      show is_ws ((ws ++ b :: rest).getD m 0) = true
      rw [List.getD_append _ _ _ _ hm]
      rw [List.getD_eq_getElem _ _ hm]
      exact hws _ (List.getElem_mem _)
    )
    (by
      show ((0 + ws.length : Nat) : Int) < (strlen (ws ++ b :: rest) : Int)
      push_cast
      omega)
    (by
      show is_ws ((ws ++ b :: rest).getD (0 + ws.length) 0) = false
      rw [Nat.zero_add, getD_append_self]
      simp only [is_ws, Bool.or_eq_false_iff, beq_eq_false_iff_ne, ne_eq]
      omega)
    (by
      show ws.length + 1 ≤ (((strlen (ws ++ b :: rest) : Int)) - ((0 : Nat) : Int)).toNat + 1
      simp only [Int.natCast_zero, sub_zero, Int.toNat_natCast]
      omega)
  rw [show skip_whitespace { str := ws ++ b :: rest, str_len := (strlen (ws ++ b :: rest) : Int), str_pos := 0, tokens := [], max_tokens := cap, level := 0 } = { str := ws ++ b :: rest, str_len := (strlen (ws ++ b :: rest) : Int), str_pos := 0 + ws.length, tokens := [], max_tokens := cap, level := 0 } from hskip]
  have heos1 : at_eos { str := ws ++ b :: rest, str_len := (strlen (ws ++ b :: rest) : Int), str_pos := 0 + ws.length, tokens := [], max_tokens := cap, level := 0 } = false := by
    simp only [at_eos, ge_iff_le, decide_eq_false_iff_not, not_le]
    push_cast
    omega
  rw [heos1, if_neg Bool.false_ne_true]
  have hpk : peek_char { str := ws ++ b :: rest, str_len := (strlen (ws ++ b :: rest) : Int), str_pos := 0 + ws.length, tokens := [], max_tokens := cap, level := 0 } = b := by
    show (ws ++ b :: rest).getD (0 + ws.length) 0 = b
    rw [Nat.zero_add, getD_append_self]
  rw [hpk]
  rw [show (b == 34) = false by simp only [beq_eq_false_iff_ne, ne_eq]; omega,
    if_neg Bool.false_ne_true]
  rw [show (is_digit b || b == 45) = false by
      simp only [is_digit, Bool.or_eq_false_iff, Bool.and_eq_false_iff,
        beq_eq_false_iff_ne, ne_eq, decide_eq_false_iff_not, not_le]
      omega,
    if_neg Bool.false_ne_true]
  rw [show (b == 116) = false by simp only [beq_eq_false_iff_ne, ne_eq]; omega,
    if_neg Bool.false_ne_true]
  rw [show (b == 102) = false by simp only [beq_eq_false_iff_ne, ne_eq]; omega,
    if_neg Bool.false_ne_true]
  rw [show (b == 110) = false by simp only [beq_eq_false_iff_ne, ne_eq]; omega,
    if_neg Bool.false_ne_true]
  rw [show (b == 123) = false by simp only [beq_eq_false_iff_ne, ne_eq]; omega,
    if_neg Bool.false_ne_true]
  rw [show (b == 91) = false by simp only [beq_eq_false_iff_ne, ne_eq]; omega,
    if_neg Bool.false_ne_true]
  rw [if_pos (by rw [land128_of_ge b hb1 hb2]; omega : b &&& 128 ≠ 0)]


theorem parse_string_multibyte (p : parser_t) (pre : List Nat) (b : Nat)
    (rest : List Nat)
    (hstr : p.str = 34 :: pre ++ b :: rest) (hpos : p.str_pos = 0)
    (hlen : ((pre.length + 2 : Nat) : Int) ≤ p.str_len)
    (hpre : ∀ c ∈ pre, 32 ≤ c ∧ c < 128 ∧ c ≠ 34 ∧ c ≠ 92)
    (hb1 : 128 ≤ b) (hb2 : b < 256)
    (halloc : alloc_ok p = true) :
    ∃ z, parse_string p = (.NO_MULTIBYTE, z) := by
  have heos : at_eos p = false := by
    simp only [at_eos, ge_iff_le, decide_eq_false_iff_not, not_le, hpos]
    push_cast at hlen ⊢
    omega
  have hpk : peek_char p = 34 := by
    unfold peek_char
    rw [hstr, hpos]
    rfl
  unfold parse_string
  dsimp only []
  rw [if_neg (by rw [heos, hpk]; simp)]
  unfold init_token
  rw [if_pos halloc]
  dsimp only []
  have hscan := string_scan_run pre.length
    (remaining (advance { p with tokens := p.tokens ++ [new_tok p mu_json_token_type_t.STRING] }) + 1)
    (advance { p with tokens := p.tokens ++ [new_tok p mu_json_token_type_t.STRING] })
    (by
      intro m h1 h2
      simp only [advance, hpos] at h1 h2
      obtain ⟨k, rfl⟩ : ∃ k, m = k + 1 := ⟨m - 1, by omega⟩
      have hk : k < pre.length := by omega
      show 32 ≤ (advance { p with tokens := p.tokens ++ [new_tok p mu_json_token_type_t.STRING] }).str.getD (k + 1) 0 ∧ _
      rw [show (advance { p with tokens := p.tokens ++ [new_tok p mu_json_token_type_t.STRING] }).str = p.str from rfl]
      rw [hstr]
      show 32 ≤ (pre ++ b :: rest).getD k 0 ∧ (pre ++ b :: rest).getD k 0 < 128 ∧ (pre ++ b :: rest).getD k 0 ≠ 34 ∧ (pre ++ b :: rest).getD k 0 ≠ 92
      rw [List.getD_append _ _ _ _ hk, List.getD_eq_getElem _ _ hk]
      exact hpre _ (List.getElem_mem _)
    )
    (by
      show (((p.str_pos + 1 + pre.length : Nat) : Int)) < p.str_len
      rw [hpos]
      push_cast at hlen ⊢
      omega)
    (by
      show 128 ≤ (advance { p with tokens := p.tokens ++ [new_tok p mu_json_token_type_t.STRING] }).str.getD (p.str_pos + 1 + pre.length) 0
      rw [show (advance { p with tokens := p.tokens ++ [new_tok p mu_json_token_type_t.STRING] }).str = p.str from rfl]
      rw [hstr, hpos, show 0 + 1 + pre.length = pre.length + 1 by omega]
      show 128 ≤ (pre ++ b :: rest).getD pre.length 0
      rw [getD_append_self]
      omega)
    (by
      show (advance { p with tokens := p.tokens ++ [new_tok p mu_json_token_type_t.STRING] }).str.getD (p.str_pos + 1 + pre.length) 0 < 256
      rw [show (advance { p with tokens := p.tokens ++ [new_tok p mu_json_token_type_t.STRING] }).str = p.str from rfl]
      rw [hstr, hpos, show 0 + 1 + pre.length = pre.length + 1 by omega]
      show (pre ++ b :: rest).getD pre.length 0 < 256
      rw [getD_append_self]
      omega)
    (by
      show pre.length + 1 ≤ (p.str_len - ((p.str_pos + 1 : Nat) : Int)).toNat + 1
      rw [hpos]
      push_cast at hlen ⊢
      omega)
  rw [hscan]
  exact ⟨_, rfl⟩

theorem in_string_multibyte (pre : List Nat) (b : Nat) (rest : List Nat) (cap : Int)
    (hpre : ∀ c ∈ pre, 32 ≤ c ∧ c < 128 ∧ c ≠ 34 ∧ c ≠ 92)
    (hb1 : 128 ≤ b) (hb2 : b < 256) (hcap : 0 < cap) :
    (mu_json_parse_str (some (34 :: pre ++ b :: rest)) false cap).1 =
      mu_json_err_t.NO_MULTIBYTE.code := by
  have hpre0 : ∀ c ∈ (34 :: pre), c ≠ 0 := by
    intro c hc
    rcases List.mem_cons.mp hc with h | h
    · omega
    · have := hpre c h
      omega
  have hL : pre.length + 2 ≤ strlen (34 :: pre ++ b :: rest) := by
    have := strlen_lower (34 :: pre) b rest hpre0 (by omega)
    simpa using this
  unfold mu_json_parse_str parse_json
  dsimp only []
  rw [if_neg Bool.false_ne_true]
  rw [if_neg (show ¬ ((strlen (34 :: pre ++ b :: rest) : Int)) = 0 by
    simp only [Int.natCast_eq_zero]; omega)]
  rw [if_neg (by omega : ¬ cap = 0)]
  simp only [Int.toNat_natCast]
  obtain ⟨f, hf⟩ : ∃ f, 2 * strlen (34 :: pre ++ b :: rest) + 8 = f + 1 :=
    ⟨2 * strlen (34 :: pre ++ b :: rest) + 7, by omega⟩
  rw [hf]
  simp only [parse_core]
  unfold parse_element_body
  dsimp only []
  have hskip := skip_ws_run 0 (remaining { str := 34 :: pre ++ b :: rest, str_len := (strlen (34 :: pre ++ b :: rest) : Int), str_pos := 0, tokens := [], max_tokens := cap, level := 0 } + 1) { str := 34 :: pre ++ b :: rest, str_len := (strlen (34 :: pre ++ b :: rest) : Int), str_pos := 0, tokens := [], max_tokens := cap, level := 0 }
    (by intro m h1 h2; omega)
    (by
      show ((0 + 0 : Nat) : Int) < (strlen (34 :: pre ++ b :: rest) : Int)
      push_cast
      omega)
    (by
      show is_ws ((34 :: pre ++ b :: rest).getD (0 + 0) 0) = false
      rfl)
    (by omega)
  rw [show skip_whitespace { str := 34 :: pre ++ b :: rest, str_len := (strlen (34 :: pre ++ b :: rest) : Int), str_pos := 0, tokens := [], max_tokens := cap, level := 0 } = { str := 34 :: pre ++ b :: rest, str_len := (strlen (34 :: pre ++ b :: rest) : Int), str_pos := 0 + 0, tokens := [], max_tokens := cap, level := 0 } from hskip]
  have heos1 : at_eos { str := 34 :: pre ++ b :: rest, str_len := (strlen (34 :: pre ++ b :: rest) : Int), str_pos := 0 + 0, tokens := [], max_tokens := cap, level := 0 } = false := by
    simp only [at_eos, ge_iff_le, decide_eq_false_iff_not, not_le]
    push_cast
    omega
  rw [heos1, if_neg Bool.false_ne_true]
  have hpk : peek_char { str := 34 :: pre ++ b :: rest, str_len := (strlen (34 :: pre ++ b :: rest) : Int), str_pos := 0 + 0, tokens := [], max_tokens := cap, level := 0 } = 34 := rfl
  rw [hpk]
  rw [show ((34 : Nat) == 34) = true from rfl, if_pos rfl]
  obtain ⟨z, hz⟩ := parse_string_multibyte { str := 34 :: pre ++ b :: rest, str_len := (strlen (34 :: pre ++ b :: rest) : Int), str_pos := 0 + 0, tokens := [], max_tokens := cap, level := 0 } pre b rest rfl rfl
    (by
      show ((pre.length + 2 : Nat) : Int) ≤ (strlen (34 :: pre ++ b :: rest) : Int)
      push_cast
      omega)
    hpre hb1 hb2
    (by
      simp only [alloc_ok, List.length_nil, Int.natCast_zero, ge_iff_le, not_le,
        decide_eq_true_eq]
      omega)
  rw [hz]

/-- Counterexample to C6 as stated: in the input `1\x80` the high byte sits
where only a delimiter or end of input may follow a complete top-level
element, and the parse reports `MU_JSON_ERR_STRAY_INPUT`, not
`MU_JSON_ERR_NO_MULTIBYTE` — the claim's "at every other position as well"
is false. -/
theorem claim_C6_counterexample :
    (mu_json_parse_str (some [49, 128]) false 5).1 =
      mu_json_err_t.STRAY_INPUT.code ∧
    (mu_json_parse_str (some [49, 128]) false 5).1 ≠
      mu_json_err_t.NO_MULTIBYTE.code := by decide

/-- C6 amended: a byte with the high bit set is rejected with
`MU_JSON_ERR_NO_MULTIBYTE` in the two positions the code actually checks:
(a) where the top-level element dispatcher reads its first non-whitespace
byte, and (b) inside a string literal body. -/
theorem claim_C6_amended :
    (∀ (ws : List Nat) (b : Nat) (rest : List Nat) (cap : Int),
      (∀ c ∈ ws, is_ws c = true) → 128 ≤ b → b < 256 → 0 < cap →
      (mu_json_parse_str (some (ws ++ b :: rest)) false cap).1 =
        mu_json_err_t.NO_MULTIBYTE.code) ∧
    (∀ (pre : List Nat) (b : Nat) (rest : List Nat) (cap : Int),
      (∀ c ∈ pre, 32 ≤ c ∧ c < 128 ∧ c ≠ 34 ∧ c ≠ 92) →
      128 ≤ b → b < 256 → 0 < cap →
      (mu_json_parse_str (some (34 :: pre ++ b :: rest)) false cap).1 =
        mu_json_err_t.NO_MULTIBYTE.code) :=
  ⟨top_level_multibyte, in_string_multibyte⟩

/-- Witness for the amended C6: a high byte after whitespace (`" \x80"`) and
a high byte inside a string body (`"\"a\x80"`) both yield
`MU_JSON_ERR_NO_MULTIBYTE`. -/
theorem claim_C6_amended_witness :
    (mu_json_parse_str (some [32, 128]) false 1).1 =
      mu_json_err_t.NO_MULTIBYTE.code ∧
    (mu_json_parse_str (some [34, 97, 128]) false 1).1 =
      mu_json_err_t.NO_MULTIBYTE.code :=
  ⟨claim_C6_amended.1 [32] 128 [] 1 (by decide) (by decide) (by decide)
      (by decide),
    claim_C6_amended.2 [97] 128 [] 1 (by decide) (by decide) (by decide)
      (by decide)⟩
